import Mathlib

/-!
Verification of the streaming-caption backend (ggc-subtitle).

Shallow embedding of the backend services in Lean 4:
strings are `List Char`, Python `dict` is an insertion-ordered association
list, Python `set` is a `Finset`, rational numbers stand for the floats of
the source (only order/field facts are used), and each stateful service is
a state type with one transition function per method.

Sources embedded:
  * `app/services/dictionary.py`      (`DictionaryService`, `_PARLIAMENT_ENTRIES`)
  * `app/services/hls_parser.py`      (`HlsPlaylistParser.get_new_segments`)
  * `app/services/channel_stt.py`     (`_SentenceBuffer`, `ChannelSttService`)
  * `app/services/speaker_utils.py`   (`group_words_by_speaker`)
  * `app/services/vod_stt_service.py` (`_parse_deepgram_response`, `_words_to_subtitles`)
  * `app/api/websocket.py`            (`ConnectionManager`)
  * `app/services/channel_status.py`  (`ChannelStatusService.fetch_status`)
-/

namespace GgcSubtitle

/-! ### Generic list facts used throughout -/

/-- Python `" ".join(parts)`: intersperse a single space between parts. -/
def joinSpace : List (List Char) → List Char
  | [] => []
  | [s] => s
  | s :: rest => s ++ ' ' :: joinSpace rest

theorem joinSpace_cons_cons (s t : List Char) (rest : List (List Char)) :
    joinSpace (s :: t :: rest) = s ++ ' ' :: joinSpace (t :: rest) := rfl

/-- Splitting a prefix relation across an append. -/
theorem prefix_append_split {α : Type*} {u c d : List α} (h : u <+: c ++ d) :
    u <+: c ∨ ∃ u', u = c ++ u' ∧ u' <+: d := by
  induction c generalizing u with
  | nil => exact Or.inr ⟨u, rfl, h⟩
  | cons b c' ih =>
    cases u with
    | nil => exact Or.inl List.nil_prefix
    | cons b' u' =>
      rcases List.cons_prefix_cons.mp h with ⟨hb, hu'⟩
      subst hb
      rcases ih hu' with hc | ⟨u'', hu'', hd⟩
      · exact Or.inl (List.cons_prefix_cons.mpr ⟨rfl, hc⟩)
      · exact Or.inr ⟨u'', by rw [List.cons_append, hu''], hd⟩

/-- Splitting an infix occurrence across an append: the occurrence lies in the
left part, in the right part, or spans the border. -/
theorem infix_append_split {α : Type*} {w c d : List α} (h : w <:+: c ++ d) :
    w <:+: c ∨ w <:+: d ∨
      ∃ a u, a ≠ [] ∧ u ≠ [] ∧ a <:+ c ∧ u <+: d ∧ a ++ u = w := by
  induction c with
  | nil => exact Or.inr (Or.inl h)
  | cons b c' ih =>
    rcases List.infix_cons_iff.mp h with hp | htail
    · rcases prefix_append_split (c := b :: c') (d := d) hp with hc | ⟨u', hw, hu'⟩
      · exact Or.inl hc.isInfix
      · cases u' with
        | nil =>
          left
          rw [hw, List.append_nil]
        | cons z u'' =>
          exact Or.inr (Or.inr ⟨b :: c', z :: u'', by simp, by simp,
            List.suffix_rfl, hu', hw.symm⟩)
    · rcases ih htail with hc | hd | ⟨a, u, ha, hu, hsuf, hupre, hw⟩
      · exact Or.inl (hc.trans (List.infix_cons_iff.mpr (Or.inr List.infix_rfl)))
      · exact Or.inr (Or.inl hd)
      · exact Or.inr (Or.inr ⟨a, u, ha, hu, hsuf.trans (List.suffix_cons b c'),
          hupre, hw⟩)

theorem infix_of_tail {α : Type*} {w : List α} {a : α} {l : List α}
    (h : w <:+: l) : w <:+: a :: l :=
  h.trans (List.infix_cons_iff.mpr (Or.inr List.infix_rfl))

/-! ### `dictionary.py` — `DictionaryService.correct` and the parliament entries

`str.replace(old, new)` (Python) scans left to right, replacing each
non-overlapping occurrence of `old` and resuming after the inserted `new`.
`replChar` embeds the nonempty-pattern case; `pyReplace` adds Python's
empty-pattern behaviour (`"ab".replace("", c) = c + "a" + c + "b" + c`).
-/

def replChar (x : Char) (xs c : List Char) : List Char → List Char
  | [] => []
  | a :: s =>
    if (x :: xs) <+: (a :: s) then c ++ replChar x xs c (s.drop xs.length)
    else a :: replChar x xs c s
termination_by s => s.length
decreasing_by
  · simp only [List.length_drop, List.length_cons]
    omega
  · simp only [List.length_cons]
    omega

def pyReplace (w c s : List Char) : List Char :=
  match w with
  | [] => c ++ s.flatMap (fun a => a :: c)
  | x :: xs => replChar x xs c s

theorem replChar_nil (x : Char) (xs c : List Char) : replChar x xs c [] = [] := by
  simp [replChar]

theorem replChar_cons_pos (x : Char) (xs c : List Char) {a : Char} {s : List Char}
    (h : (x :: xs) <+: (a :: s)) :
    replChar x xs c (a :: s) = c ++ replChar x xs c (s.drop xs.length) := by
  rw [replChar, if_pos h]

theorem replChar_cons_neg (x : Char) (xs c : List Char) {a : Char} {s : List Char}
    (h : ¬ (x :: xs) <+: (a :: s)) :
    replChar x xs c (a :: s) = a :: replChar x xs c s := by
  rw [replChar, if_neg h]

/-- If the pattern is a prefix of `a :: s`, the input splits as pattern ++ rest
where rest is exactly `s.drop xs.length`. -/
theorem cons_eq_pattern_append {x : Char} {xs : List Char} {a : Char} {s : List Char}
    (h : (x :: xs) <+: (a :: s)) : a :: s = (x :: xs) ++ s.drop xs.length := by
  rcases h with ⟨t, ht⟩
  have hdrop : t = s.drop xs.length := by
    have := congrArg (List.drop (x :: xs).length) ht
    rwa [List.drop_left, List.length_cons, List.drop_succ_cons] at this
  rw [← ht, hdrop]

/-- Core occurrence analysis for one `str.replace` pass with pattern `w = x :: xs`
and replacement `c`, relative to a monitored word `w'`.

Hypotheses say that `c` cannot contribute to an occurrence of `w'`:
`w'` is not inside `c`, no nonempty suffix of `c` starts `w'` strictly, no
nonempty prefix of `c` ends `w'` strictly, and `w'` never decomposes as
`v ++ c ++ z` with both sides nonempty.

Conclusion (a): if `w'` is the pattern itself, or did not occur in the input,
it does not occur in the output. Conclusion (b): any prefix of the output that
is a strict suffix of `w'` was already a prefix of the input. -/
theorem replChar_main (x : Char) (xs c w' : List Char) (hw' : w' ≠ [])
    (h1 : ¬ w' <:+: c)
    (h2 : ∀ a, a <:+ c → a ≠ [] → a <+: w' → a.length = w'.length)
    (h3 : ∀ u, u <+: c → u ≠ [] → u <:+ w' → u.length = w'.length)
    (h4 : ∀ v z, v ≠ [] → z ≠ [] → v ++ c ++ z ≠ w') :
    ∀ n s, s.length ≤ n → (w' = x :: xs ∨ ¬ w' <:+: s) →
      (¬ w' <:+: replChar x xs c s) ∧
      (∀ v u, v ≠ [] → v ++ u = w' → u <+: replChar x xs c s → u <+: s) := by
  obtain ⟨w0, wrest, rfl⟩ : ∃ b t, w' = b :: t := by
    cases w' with
    | nil => exact absurd rfl hw'
    | cons b t => exact ⟨b, t, rfl⟩
  intro n
  induction n with
  | zero =>
    intro s hs _
    have hsnil : s = [] := List.eq_nil_of_length_eq_zero (Nat.le_zero.mp hs)
    subst hsnil
    rw [replChar_nil]
    refine ⟨fun hinf => List.cons_ne_nil w0 wrest (List.infix_nil.mp hinf), ?_⟩
    intro v u _ _ hu
    obtain rfl := List.prefix_nil.mp hu
    exact List.nil_prefix
  | succ n ih =>
    intro s hs hside
    cases s with
    | nil =>
      rw [replChar_nil]
      refine ⟨fun hinf => List.cons_ne_nil w0 wrest (List.infix_nil.mp hinf), ?_⟩
      intro v u _ _ hu
      obtain rfl := List.prefix_nil.mp hu
      exact List.nil_prefix
    | cons a s' =>
      by_cases hpre : (x :: xs) <+: (a :: s')
      · -- the pattern matches here: output is c ++ (recursive output on the rest)
        have heq := replChar_cons_pos x xs c hpre
        have hsplit := cons_eq_pattern_append hpre
        set t := s'.drop xs.length with hts
        have htlen : t.length ≤ n := by
          have : t.length ≤ s'.length := by
            rw [hts]
            simp only [List.length_drop]
            omega
          simp only [List.length_cons] at hs
          omega
        have htsuf : t <:+ a :: s' := ⟨x :: xs, hsplit.symm⟩
        have hsidet : (w0 :: wrest) = x :: xs ∨ ¬ (w0 :: wrest) <:+: t := by
          rcases hside with h | h
          · exact Or.inl h
          · exact Or.inr fun hc => h (hc.trans htsuf.isInfix)
        have iht := ih t htlen hsidet
        constructor
        · rw [heq]
          intro hinf
          rcases infix_append_split hinf with hcase | hcase | ⟨a₂, u, ha₂, hu, hsuf, hupre, hw⟩
          · exact h1 hcase
          · exact iht.1 hcase
          · have hp : a₂ <+: (w0 :: wrest) := ⟨u, hw⟩
            have hlen := h2 a₂ hsuf ha₂ hp
            have hlu := congrArg List.length hw
            simp only [List.length_append] at hlu
            have : u.length = 0 := by omega
            exact hu (List.eq_nil_of_length_eq_zero this)
        · rw [heq]
          intro v u hv hvu hu
          rcases prefix_append_split hu with huc | ⟨u', rfl, hu'⟩
          · cases u with
            | nil => exact List.nil_prefix
            | cons b u₂ =>
              exfalso
              have hsuffix : (b :: u₂) <:+ (w0 :: wrest) := ⟨v, hvu⟩
              have hlen := h3 (b :: u₂) huc (by simp) hsuffix
              have hlu := congrArg List.length hvu
              simp only [List.length_append, List.length_cons] at hlu hlen
              have hvnil : v.length = 0 := by omega
              exact hv (List.eq_nil_of_length_eq_zero hvnil)
          · cases u' with
            | nil =>
              -- u = c itself: nonempty c would be a strict suffix of the word
              by_cases hc : c = []
              · rw [hc, List.append_nil]
                exact List.nil_prefix
              · exfalso
                rw [List.append_nil] at hvu
                have hsuffix : c <:+ (w0 :: wrest) := ⟨v, hvu⟩
                have hlen := h3 c List.prefix_rfl hc hsuffix
                have hlu := congrArg List.length hvu
                simp only [List.length_append, List.length_cons] at hlu hlen
                have hvnil : v.length = 0 := by omega
                exact hv (List.eq_nil_of_length_eq_zero hvnil)
            | cons b u₂ =>
              exfalso
              exact h4 v (b :: u₂) hv (by simp)
                (by rw [List.append_assoc]; exact hvu)
      · -- no match here: the head is copied unchanged
        have heq := replChar_cons_neg x xs c hpre
        have hsides' : (w0 :: wrest) = x :: xs ∨ ¬ (w0 :: wrest) <:+: s' := by
          rcases hside with h | h
          · exact Or.inl h
          · exact Or.inr fun hc => h (infix_of_tail hc)
        have ihs' := ih s' (by simp only [List.length_cons] at hs; omega) hsides'
        constructor
        · rw [heq]
          intro hinf
          rcases List.infix_cons_iff.mp hinf with hp | htail
          · rcases List.cons_prefix_cons.mp hp with ⟨hb, hw₂⟩
            have hw₂s : wrest <+: s' :=
              ihs'.2 [w0] wrest (by simp) rfl hw₂
            have hws : (w0 :: wrest) <+: (a :: s') := by
              rw [hb]
              exact List.cons_prefix_cons.mpr ⟨rfl, hw₂s⟩
            rcases hside with h | h
            · exact hpre (h ▸ hws)
            · exact h hws.isInfix
          · exact ihs'.1 htail
        · rw [heq]
          intro v u hv hvu hu
          cases u with
          | nil => exact List.nil_prefix
          | cons b u₂ =>
            rcases List.cons_prefix_cons.mp hu with ⟨hb, hu₂⟩
            have hu₂s : u₂ <+: s' :=
              ihs'.2 (v ++ [b]) u₂ (by simp)
                (by rw [List.append_assoc]; exact hvu) hu₂
            rw [hb]
            exact List.cons_prefix_cons.mpr ⟨rfl, hu₂s⟩

/-- One replace pass with pattern `w` leaves a string without occurrences of `w`
unchanged. -/
theorem replChar_of_not_infix (x : Char) (xs c : List Char) :
    ∀ s, ¬ (x :: xs) <:+: s → replChar x xs c s = s := by
  intro s
  induction s with
  | nil => intro _; exact replChar_nil x xs c
  | cons a s' ihs =>
    intro h
    have hpre : ¬ (x :: xs) <+: (a :: s') := fun hp => h hp.isInfix
    rw [replChar_cons_neg x xs c hpre, ihs fun hc => h (infix_of_tail hc)]

/-- Replacing a pattern by itself is the identity. -/
theorem replChar_self (x : Char) (xs : List Char) :
    ∀ n s, s.length ≤ n → replChar x xs (x :: xs) s = s := by
  intro n
  induction n with
  | zero =>
    intro s hs
    rw [List.eq_nil_of_length_eq_zero (Nat.le_zero.mp hs), replChar_nil]
  | succ n ih =>
    intro s hs
    match s with
    | [] => exact replChar_nil x xs (x :: xs)
    | a :: s' =>
      by_cases hpre : (x :: xs) <+: (a :: s')
      · rw [replChar_cons_pos x xs (x :: xs) hpre]
        have hsplit := cons_eq_pattern_append hpre
        have hlen : (s'.drop xs.length).length ≤ n := by
          simp only [List.length_drop]
          simp only [List.length_cons] at hs
          omega
        rw [ih (s'.drop xs.length) hlen, ← hsplit]
      · rw [replChar_cons_neg x xs (x :: xs) hpre]
        simp only [List.length_cons] at hs
        rw [ih s' (by omega)]

/-- An entry of the terminology dictionary (`DictionaryEntry` in the source). -/
structure DictionaryEntry where
  wrong_text : List Char
  correct_text : List Char
  category : Option (List Char) := none
deriving DecidableEq

/-- Python `str.replace(old, new)` on `List Char`, including the empty-pattern
case where the replacement is spliced before every character and at the end. -/
theorem pyReplace_eq_replChar (x : Char) (xs c s : List Char) :
    pyReplace (x :: xs) c s = replChar x xs c s := rfl

/-- `self._entries[entry.wrong_text] = entry`: replace the entry with the same
key in place, otherwise append (Python dict insertion semantics). -/
def dictInsert (m : List DictionaryEntry) (e : DictionaryEntry) : List DictionaryEntry :=
  if (m.map DictionaryEntry.wrong_text).contains e.wrong_text then
    m.map (fun e' => if e'.wrong_text = e.wrong_text then e else e')
  else m ++ [e]

/-- `DictionaryService.__init__`: fold entries into the keyed dict. -/
def dictBuild (entries : List DictionaryEntry) : List DictionaryEntry :=
  entries.foldl dictInsert []

/-- Loop body of `DictionaryService.correct`:
`result = result.replace(wrong_text, entry.correct_text)`. -/
def applyEntry (result : List Char) (e : DictionaryEntry) : List Char :=
  pyReplace e.wrong_text e.correct_text result

/-- `DictionaryService.correct`: early return on empty text, then successive
replacement over the stored entries in insertion order. -/
def DictionaryService.correct (entries : List DictionaryEntry) (text : List Char) : List Char :=
  if text = [] then text
  else entries.foldl applyEntry text

/-- `_PARLIAMENT_ENTRIES` from `dictionary.py`, in declaration order. -/
def _PARLIAMENT_ENTRIES : List DictionaryEntry := [
  ⟨"사내를 선포".toList, "산회를 선포".toList, some "term".toList⟩,
  ⟨"사내 를 선포".toList, "산회를 선포".toList, some "term".toList⟩,
  ⟨"사내선포".toList, "산회 선포".toList, some "term".toList⟩,
  ⟨"사내합니다".toList, "산회합니다".toList, some "term".toList⟩,
  ⟨"사내를".toList, "산회를".toList, some "term".toList⟩,
  ⟨"사내 합니다".toList, "산회합니다".toList, some "term".toList⟩,
  ⟨"개이합니다".toList, "개의합니다".toList, some "term".toList⟩,
  ⟨"개이를 선포".toList, "개의를 선포".toList, some "term".toList⟩,
  ⟨"정회를 선포".toList, "정회를 선포".toList, some "term".toList⟩,
  ⟨"소개합니다".toList, "속개합니다".toList, some "term".toList⟩,
  ⟨"속계합니다".toList, "속개합니다".toList, some "term".toList⟩,
  ⟨"상정 하겠습니다".toList, "상정하겠습니다".toList, some "term".toList⟩,
  ⟨"의안을 상정 합니다".toList, "의안을 상정합니다".toList, some "term".toList⟩,
  ⟨"의결 하겠습니다".toList, "의결하겠습니다".toList, some "term".toList⟩,
  ⟨"위원장 님".toList, "위원장님".toList, some "term".toList⟩,
  ⟨"의원 님".toList, "의원님".toList, some "term".toList⟩,
  ⟨"도지사 님".toList, "도지사님".toList, some "term".toList⟩,
  ⟨"경기 도의회".toList, "경기도의회".toList, some "term".toList⟩,
  ⟨"경기도 의회".toList, "경기도의회".toList, some "term".toList⟩,
  ⟨"보건 복지 위원회".toList, "보건복지위원회".toList, some "term".toList⟩,
  ⟨"질의 하겠습니다".toList, "질의하겠습니다".toList, some "term".toList⟩,
  ⟨"답변 하겠습니다".toList, "답변하겠습니다".toList, some "term".toList⟩,
  ⟨"출석을 부르겠습니다".toList, "출석을 부르겠습니다".toList, some "term".toList⟩]

set_option maxHeartbeats 2000000 in
/-- The parliament entries have pairwise distinct keys, so the dict built by
`get_default_dictionary` holds them exactly in declaration order. -/
theorem dictBuild_parliament : dictBuild _PARLIAMENT_ENTRIES = _PARLIAMENT_ENTRIES := by
  rfl

/-- The non-interference conditions between a monitored word `w` and a
replacement string `c` used by `replChar_main`, in decidable bounded form. -/
def OkPair (w c : List Char) : Prop :=
  ¬ w <:+: c
  ∧ (∀ a ∈ c.tails, a ≠ [] → a <+: w → a.length = w.length)
  ∧ (∀ u ∈ c.inits, u ≠ [] → u <:+ w → u.length = w.length)
  ∧ (∀ v ∈ w.inits, ∀ z ∈ w.tails, v ≠ [] → z ≠ [] → v ++ c ++ z ≠ w)

instance (w c : List Char) : Decidable (OkPair w c) := by
  unfold OkPair
  infer_instance

/-- After one replace pass with pattern `w`, the word `w'` does not occur in
the output, provided it is the pattern itself or was already absent, and
`OkPair w' c` holds. -/
theorem pyReplace_no_new_occ (w c w' : List Char) (hw : w ≠ []) (hw' : w' ≠ [])
    (hok : OkPair w' c) (s : List Char) (hside : w' = w ∨ ¬ w' <:+: s) :
    ¬ w' <:+: pyReplace w c s := by
  obtain ⟨x, xs, rfl⟩ : ∃ x xs, w = x :: xs := by
    cases w with
    | nil => exact absurd rfl hw
    | cons x xs => exact ⟨x, xs, rfl⟩
  have h2 : ∀ a, a <:+ c → a ≠ [] → a <+: w' → a.length = w'.length :=
    fun a ha => hok.2.1 a ((List.mem_tails _ _).mpr ha)
  have h3 : ∀ u, u <+: c → u ≠ [] → u <:+ w' → u.length = w'.length :=
    fun u hu => hok.2.2.1 u ((List.mem_inits _ _).mpr hu)
  have h4 : ∀ v z, v ≠ [] → z ≠ [] → v ++ c ++ z ≠ w' := by
    intro v z hv hz heq
    have heq' : v ++ (c ++ z) = w' := by rw [← List.append_assoc]; exact heq
    exact hok.2.2.2 v ((List.mem_inits _ _).mpr ⟨c ++ z, heq'⟩)
      z ((List.mem_tails _ _).mpr ⟨v ++ c, heq⟩) hv hz heq
  rw [pyReplace_eq_replChar]
  exact (replChar_main x xs c w' hw' hok.1 h2 h3 h4 s.length s le_rfl hside).1

/-- A replace pass whose pattern does not occur leaves the text unchanged. -/
theorem pyReplace_noop (w c s : List Char) (hw : w ≠ []) (h : ¬ w <:+: s) :
    pyReplace w c s = s := by
  obtain ⟨x, xs, rfl⟩ : ∃ x xs, w = x :: xs := by
    cases w with
    | nil => exact absurd rfl hw
    | cons x xs => exact ⟨x, xs, rfl⟩
  exact replChar_of_not_infix x xs c s h

/-- Replacing a pattern by itself leaves the text unchanged. -/
theorem pyReplace_id (w s : List Char) (hw : w ≠ []) : pyReplace w w s = s := by
  obtain ⟨x, xs, rfl⟩ : ∃ x xs, w = x :: xs := by
    cases w with
    | nil => exact absurd rfl hw
    | cons x xs => exact ⟨x, xs, rfl⟩
  exact replChar_self x xs s.length s le_rfl

/-- Boolean infix test: `w` is a prefix of some suffix of `s`. -/
def isInfixB (w s : List Char) : Bool :=
  s.tails.any (fun t => w.isPrefixOf t)

theorem isInfixB_iff (w s : List Char) : isInfixB w s = true ↔ w <:+: s := by
  unfold isInfixB
  rw [List.any_eq_true]
  constructor
  · rintro ⟨t, ht, hp⟩
    exact List.infix_iff_prefix_suffix.mpr
      ⟨t, List.isPrefixOf_iff_prefix.mp hp, (List.mem_tails _ _).mp ht⟩
  · intro h
    rcases List.infix_iff_prefix_suffix.mp h with ⟨t, hpre, hsuf⟩
    exact ⟨t, (List.mem_tails _ _).mpr hsuf, List.isPrefixOf_iff_prefix.mpr hpre⟩

/-- Boolean form of `OkPair`, evaluated by the kernel as a plain boolean
computation. -/
def okPairB (w c : List Char) : Bool :=
  !isInfixB w c
  && c.tails.all (fun a => a.length == 0 || !a.isPrefixOf w || a.length == w.length)
  && c.inits.all (fun u => u.length == 0 || !u.isSuffixOf w || u.length == w.length)
  && w.inits.all (fun v => w.tails.all (fun z =>
      v.length == 0 || z.length == 0 || !((v ++ c ++ z) == w)))

/-- Soundness of the boolean check with respect to `OkPair`. -/
theorem okPairB_ok (w c : List Char) (h : okPairB w c = true) : OkPair w c := by
  unfold okPairB at h
  simp only [Bool.and_eq_true] at h
  obtain ⟨⟨⟨h1, h2⟩, h3⟩, h4⟩ := h
  refine ⟨?_, ?_, ?_, ?_⟩
  · intro hinf
    have hx := (isInfixB_iff w c).mpr hinf
    rw [Bool.not_eq_true'] at h1
    rw [h1] at hx
    simp at hx
  · intro a ha hane hpre
    have hh := List.all_eq_true.mp h2 a ha
    simp only [Bool.or_eq_true] at hh
    rcases hh with (hh | hh) | hh
    · exact absurd (List.length_eq_zero.mp (beq_iff_eq.mp hh)) hane
    · rw [Bool.not_eq_true'] at hh
      have hx := List.isPrefixOf_iff_prefix.mpr hpre
      rw [hh] at hx
      simp at hx
    · exact beq_iff_eq.mp hh
  · intro u hu hune hsuf
    have hh := List.all_eq_true.mp h3 u hu
    simp only [Bool.or_eq_true] at hh
    rcases hh with (hh | hh) | hh
    · exact absurd (List.length_eq_zero.mp (beq_iff_eq.mp hh)) hune
    · rw [Bool.not_eq_true'] at hh
      have hx := List.isSuffixOf_iff_suffix.mpr hsuf
      rw [hh] at hx
      simp at hx
    · exact beq_iff_eq.mp hh
  · intro v hv z hz hvne hzne heq
    have hh := List.all_eq_true.mp (List.all_eq_true.mp h4 v hv) z hz
    simp only [Bool.or_eq_true] at hh
    rcases hh with (hh | hh) | hh
    · exact absurd (List.length_eq_zero.mp (beq_iff_eq.mp hh)) hvne
    · exact absurd (List.length_eq_zero.mp (beq_iff_eq.mp hh)) hzne
    · rw [Bool.not_eq_true'] at hh
      have hx : ((v ++ c ++ z) == w) = true := beq_iff_eq.mpr heq
      rw [hh] at hx
      simp at hx

/-- The complete non-interference check of the entry table in boolean form. -/
def parliamentOkB : Bool :=
  _PARLIAMENT_ENTRIES.all (fun e =>
    !(e.wrong_text.length == 0)
    && ((e.wrong_text == e.correct_text)
        || _PARLIAMENT_ENTRIES.all (fun e' => okPairB e.wrong_text e'.correct_text)))

set_option maxHeartbeats 4000000 in
/-- The boolean table check evaluates to `true`. -/
theorem parliamentOkB_true : parliamentOkB = true := rfl

set_option maxHeartbeats 1000000 in
/-- Each non-identity parliament entry key is nonempty and non-interfering with
every replacement string of the table (by the boolean computation). -/
theorem parliament_entries_ok :
    ∀ e ∈ _PARLIAMENT_ENTRIES, e.wrong_text ≠ [] ∧
      (e.wrong_text ≠ e.correct_text →
        ∀ e' ∈ _PARLIAMENT_ENTRIES, OkPair e.wrong_text e'.correct_text) := by
  intro e he
  have h0 : parliamentOkB = true := parliamentOkB_true
  unfold parliamentOkB at h0
  have h := List.all_eq_true.mp h0 e he
  simp only [Bool.and_eq_true, Bool.or_eq_true] at h
  obtain ⟨hne, hcase⟩ := h
  refine ⟨?_, ?_⟩
  · intro hnil
    rw [Bool.not_eq_true'] at hne
    have hx : (e.wrong_text.length == 0) = true := by rw [hnil]; rfl
    rw [hne] at hx
    simp at hx
  · intro hneq e' he'
    rcases hcase with hbeq | hall
    · exact absurd (eq_of_beq hbeq) hneq
    · exact okPairB_ok _ _ (List.all_eq_true.mp hall e' he')

/-- Absence of a word is preserved by any run of replace passes whose
replacement strings are all non-interfering with it. -/
theorem fold_preserve_absence (w' : List Char) (hw' : w' ≠ []) :
    ∀ (es : List DictionaryEntry) (s : List Char),
      (∀ e ∈ es, e.wrong_text ≠ []) →
      (∀ e ∈ es, OkPair w' e.correct_text) →
      ¬ w' <:+: s → ¬ w' <:+: es.foldl applyEntry s := by
  intro es
  induction es with
  | nil => intro s _ _ habs; exact habs
  | cons e es' ih =>
    intro s hne hok habs
    rw [List.foldl_cons]
    exact ih _ (fun e' he' => hne e' (List.mem_cons_of_mem e he'))
      (fun e' he' => hok e' (List.mem_cons_of_mem e he'))
      (pyReplace_no_new_occ e.wrong_text e.correct_text w'
        (hne e (List.mem_cons_self e es')) hw'
        (hok e (List.mem_cons_self e es')) s (Or.inr habs))

/-- After the full correction pass, no non-identity entry key occurs in the
result. -/
theorem correct_absence (x : List Char) (e : DictionaryEntry)
    (he : e ∈ _PARLIAMENT_ENTRIES) (hne : e.wrong_text ≠ e.correct_text) :
    ¬ e.wrong_text <:+: DictionaryService.correct _PARLIAMENT_ENTRIES x := by
  have hw := (parliament_entries_ok e he).1
  have hoks := (parliament_entries_ok e he).2 hne
  unfold DictionaryService.correct
  by_cases hx : x = []
  · rw [if_pos hx, hx]
    exact fun hinf => hw (List.infix_nil.mp hinf)
  · rw [if_neg hx]
    obtain ⟨es₁, es₂, hsplit⟩ := List.append_of_mem he
    rw [hsplit, List.foldl_append, List.foldl_cons]
    have habs : ¬ e.wrong_text <:+: applyEntry (List.foldl applyEntry x es₁) e :=
      pyReplace_no_new_occ _ _ _ hw hw (hoks e he) _ (Or.inl rfl)
    exact fold_preserve_absence e.wrong_text hw es₂ _
      (fun e' he' => (parliament_entries_ok e'
        (by rw [hsplit]; exact List.mem_append_right _ (List.mem_cons_of_mem _ he'))).1)
      (fun e' he' => hoks e'
        (by rw [hsplit]; exact List.mem_append_right _ (List.mem_cons_of_mem _ he')))
      habs

/-- A run of replace passes in which every pattern is either an identity entry
or absent from the text leaves the text unchanged. -/
theorem fold_noop (y : List Char) :
    ∀ es : List DictionaryEntry,
      (∀ e ∈ es, e.wrong_text ≠ []) →
      (∀ e ∈ es, e.wrong_text = e.correct_text ∨ ¬ e.wrong_text <:+: y) →
      es.foldl applyEntry y = y := by
  intro es
  induction es with
  | nil => intro _ _; rfl
  | cons e es' ih =>
    intro hne hc
    rw [List.foldl_cons]
    have hstep : applyEntry y e = y := by
      rcases hc e (List.mem_cons_self e es') with hid | habs
      · unfold applyEntry
        rw [← hid]
        exact pyReplace_id _ y (hne e (List.mem_cons_self e es'))
      · exact pyReplace_noop _ _ y (hne e (List.mem_cons_self e es')) habs
    rw [hstep]
    exact ih (fun e' he' => hne e' (List.mem_cons_of_mem e he'))
      (fun e' he' => hc e' (List.mem_cons_of_mem e he'))

/-- C1: terminology correction with the default parliament dictionary is
idempotent: `correct(correct(x)) = correct(x)` for every string `x`, where
`correct` replaces each entry key by its correction in declaration order. -/
theorem dictionary_correct_idempotent (x : List Char) :
    DictionaryService.correct _PARLIAMENT_ENTRIES
        (DictionaryService.correct _PARLIAMENT_ENTRIES x)
      = DictionaryService.correct _PARLIAMENT_ENTRIES x := by
  set y := DictionaryService.correct _PARLIAMENT_ENTRIES x with hy
  by_cases hynil : y = []
  · unfold DictionaryService.correct
    rw [if_pos hynil]
  · unfold DictionaryService.correct
    rw [if_neg hynil]
    apply fold_noop
    · exact fun e he => (parliament_entries_ok e he).1
    · intro e he
      by_cases hne : e.wrong_text = e.correct_text
      · exact Or.inl hne
      · exact Or.inr (hy ▸ correct_absence x e he hne)

/-! ### hls_parser.py — segment de-duplication -/

structure HlsPlaylistParser where
  seen_segments : Finset String
  media_playlist_url : Option String

def HlsPlaylistParser.get_new_segments (p : HlsPlaylistParser) (all_segments : List String) :
    List String × HlsPlaylistParser :=
  let new_segments := all_segments.filter (fun s => decide (s ∉ p.seen_segments))
  (new_segments,
   { p with seen_segments := p.seen_segments ∪ new_segments.toFinset })

def HlsPlaylistParser.reset (_p : HlsPlaylistParser) : HlsPlaylistParser :=
  { seen_segments := ∅, media_playlist_url := none }

theorem get_new_segments_spec (p : HlsPlaylistParser) (P : List String) :
    (p.get_new_segments P).1 = P.filter (fun s => decide (s ∉ p.seen_segments))
    ∧ ((p.get_new_segments P).2.get_new_segments P).1 = []
    ∧ (p.get_new_segments P).2.seen_segments = p.seen_segments ∪ P.toFinset := by
  refine ⟨rfl, ?_, ?_⟩
  · apply List.filter_eq_nil_iff.mpr
    intro s hs
    simp only [HlsPlaylistParser.get_new_segments, Finset.mem_union, List.mem_toFinset,
      List.mem_filter, decide_eq_true_eq, decide_eq_false_iff_not, not_not]
    by_cases hmem : s ∈ p.seen_segments
    · exact Or.inl hmem
    · exact Or.inr ⟨hs, hmem⟩
  · simp only [HlsPlaylistParser.get_new_segments]
    ext a
    simp only [Finset.mem_union, List.mem_toFinset, List.mem_filter, decide_eq_true_eq]
    constructor
    · rintro (h | ⟨h1, _⟩)
      · exact Or.inl h
      · exact Or.inr h1
    · rintro (h | h)
      · exact Or.inl h
      · by_cases hmem : a ∈ p.seen_segments
        · exact Or.inl hmem
        · exact Or.inr ⟨h, hmem⟩

theorem reset_spec (p : HlsPlaylistParser) :
    (p.reset).seen_segments = ∅ ∧ (p.reset).media_playlist_url = none := ⟨rfl, rfl⟩

/-! ### channel_stt.py — _SentenceBuffer -/

/-- Python `str` whitespace for the default `strip`/`rstrip` (ASCII range). -/
def pyIsSpace (ch : Char) : Bool :=
  ch = ' ' || ch = '\t' || ch = '\n' || ch = '\x0d' || ch = '\x0b' || ch = '\x0c'

/-- Python `text.rstrip()`. -/
def rstripChars (l : List Char) : List Char :=
  (l.reverse.dropWhile pyIsSpace).reverse

/-- Python `text.lstrip()`. -/
def lstripChars (l : List Char) : List Char :=
  l.dropWhile pyIsSpace

/-- Python `text.strip()`. -/
def stripChars (l : List Char) : List Char :=
  rstripChars (lstripChars l)

structure SentenceBuffer where
  parts : List (List Char)
  speaker : Option Int
  start_time : ℚ
  end_time : ℚ
  conf_sum : ℚ
  conf_count : ℕ

/-- `_SentenceBuffer.__init__` / `clear`. -/
def SentenceBuffer.empty : SentenceBuffer := ⟨[], none, 0, 0, 0, 0⟩

def SentenceBuffer.text (b : SentenceBuffer) : List Char := joinSpace b.parts

def SentenceBuffer.avg_confidence (b : SentenceBuffer) : ℚ :=
  if b.conf_count ≠ 0 then b.conf_sum / b.conf_count else 0

def SentenceBuffer.add (b : SentenceBuffer) (text : List Char) (speaker : Option Int)
    (confidence : ℚ) (start fin : ℚ) : SentenceBuffer :=
  { parts := b.parts ++ [text]
    speaker := match speaker with
      | some sp => some sp
      | none => b.speaker
    start_time := if b.parts = [] then start else b.start_time
    end_time := fin
    conf_sum := b.conf_sum + confidence
    conf_count := b.conf_count + 1 }

def SentenceBuffer.should_flush (b : SentenceBuffer) : Bool :=
  let text := b.text
  if text = [] then false
  else
    let stripped := rstripChars text
    if stripped = [] then false
    else
      let last_char := stripped.getLast?.getD ' '
      if last_char = '.' ∨ last_char = '?' ∨ last_char = '!' then true
      else if last_char = ',' then true
      else if "니다".toList.isSuffixOf stripped ∨ "습니다".toList.isSuffixOf stripped
          ∨ "까".toList.isSuffixOf stripped then true
      else if last_char = '요' ∨ last_char = '다' then true
      else if 40 < text.length then true
      else false

/-- A nonempty list's last entry, via `getLast?`. -/
theorem getLast?_eq_some_iff_suffix {l : List Char} {ch : Char} (hl : l ≠ []) :
    l.getLast? = some ch ↔ [ch] <:+ l := by
  constructor
  · intro h
    rcases List.getLast?_eq_some_iff.mp h with ⟨l', rfl⟩
    exact ⟨l', rfl⟩
  · rintro ⟨l', rfl⟩
    rw [List.getLast?_concat]

/-- C5: flush condition of the sentence buffer, phrased over the nine terminator
strings of the spec plus the length threshold. -/
theorem should_flush_spec (b : SentenceBuffer) :
    ((b.text = [] ∨ rstripChars b.text = []) → b.should_flush = false)
    ∧ (b.text ≠ [] → rstripChars b.text ≠ [] →
        (b.should_flush = true ↔
          ((∃ p ∈ [".", "?", "!", ",", "니다", "습니다", "까", "요", "다"],
              (p : String).toList <:+ rstripChars b.text)
            ∨ 40 < b.text.length))) := by
  constructor
  · rintro (h | h) <;> unfold SentenceBuffer.should_flush
    · rw [if_pos h]
    · by_cases ht : b.text = []
      · rw [if_pos ht]
      · rw [if_neg ht, if_pos h]
  · intro ht hst
    obtain ⟨lc, hlc⟩ : ∃ ch, (rstripChars b.text).getLast? = some ch := by
      cases hg : (rstripChars b.text).getLast? with
      | none => exact absurd (List.getLast?_eq_none_iff.mp hg) hst
      | some ch => exact ⟨ch, rfl⟩
    have hlcD : (rstripChars b.text).getLast?.getD ' ' = lc := by
      rw [hlc]
      rfl
    unfold SentenceBuffer.should_flush
    rw [if_neg ht, if_neg hst, hlcD]
    constructor
    · -- forward: each true branch yields a terminator or the length bound
      intro h
      by_cases h1 : lc = '.' ∨ lc = '?' ∨ lc = '!'
      · left
        rcases h1 with h1 | h1 | h1 <;> subst h1 <;>
          [exact ⟨".", by simp, (getLast?_eq_some_iff_suffix hst).mp hlc⟩;
           exact ⟨"?", by simp, (getLast?_eq_some_iff_suffix hst).mp hlc⟩;
           exact ⟨"!", by simp, (getLast?_eq_some_iff_suffix hst).mp hlc⟩]
      · rw [if_neg h1] at h
        by_cases h2 : lc = ','
        · subst h2
          exact Or.inl ⟨",", by simp, (getLast?_eq_some_iff_suffix hst).mp hlc⟩
        · rw [if_neg h2] at h
          by_cases h3 : "니다".toList.isSuffixOf (rstripChars b.text)
              ∨ "습니다".toList.isSuffixOf (rstripChars b.text)
              ∨ "까".toList.isSuffixOf (rstripChars b.text)
          · left
            rcases h3 with h3 | h3 | h3
            · exact ⟨"니다", by simp, List.isSuffixOf_iff_suffix.mp h3⟩
            · exact ⟨"습니다", by simp, List.isSuffixOf_iff_suffix.mp h3⟩
            · exact ⟨"까", by simp, List.isSuffixOf_iff_suffix.mp h3⟩
          · rw [if_neg h3] at h
            by_cases h4 : lc = '요' ∨ lc = '다'
            · left
              rcases h4 with h4 | h4 <;> subst h4 <;>
                [exact ⟨"요", by simp, (getLast?_eq_some_iff_suffix hst).mp hlc⟩;
                 exact ⟨"다", by simp, (getLast?_eq_some_iff_suffix hst).mp hlc⟩]
            · rw [if_neg h4] at h
              by_cases h5 : 40 < b.text.length
              · exact Or.inr h5
              · rw [if_neg h5] at h
                exact absurd h (by simp)
    · -- backward: if all branch conditions fail, no terminator can be a suffix
      intro h
      by_cases h1 : lc = '.' ∨ lc = '?' ∨ lc = '!'
      · rw [if_pos h1]
      · rw [if_neg h1]
        by_cases h2 : lc = ','
        · rw [if_pos h2]
        · rw [if_neg h2]
          by_cases h3 : "니다".toList.isSuffixOf (rstripChars b.text)
              ∨ "습니다".toList.isSuffixOf (rstripChars b.text)
              ∨ "까".toList.isSuffixOf (rstripChars b.text)
          · rw [if_pos h3]
          · rw [if_neg h3]
            by_cases h4 : lc = '요' ∨ lc = '다'
            · rw [if_pos h4]
            · rw [if_neg h4]
              by_cases h5 : 40 < b.text.length
              · rw [if_pos h5]
              · exfalso
                rcases h with ⟨p, hp, hsuf⟩ | hlen
                · simp only [List.mem_cons, List.not_mem_nil, or_false] at hp
                  have hcontra : False := by
                    rcases hp with rfl | rfl | rfl | rfl | rfl | rfl | rfl | rfl | rfl
                    · exact h1 (Or.inl (by
                        have := (getLast?_eq_some_iff_suffix hst).mpr hsuf
                        rw [hlc] at this
                        exact Option.some_inj.mp this))
                    · exact h1 (Or.inr (Or.inl (by
                        have := (getLast?_eq_some_iff_suffix hst).mpr hsuf
                        rw [hlc] at this
                        exact Option.some_inj.mp this)))
                    · exact h1 (Or.inr (Or.inr (by
                        have := (getLast?_eq_some_iff_suffix hst).mpr hsuf
                        rw [hlc] at this
                        exact Option.some_inj.mp this)))
                    · exact h2 (by
                        have := (getLast?_eq_some_iff_suffix hst).mpr hsuf
                        rw [hlc] at this
                        exact Option.some_inj.mp this)
                    · exact h3 (Or.inl (List.isSuffixOf_iff_suffix.mpr hsuf))
                    · exact h3 (Or.inr (Or.inl (List.isSuffixOf_iff_suffix.mpr hsuf)))
                    · exact h3 (Or.inr (Or.inr (List.isSuffixOf_iff_suffix.mpr hsuf)))
                    · exact h4 (Or.inl (by
                        have := (getLast?_eq_some_iff_suffix hst).mpr hsuf
                        rw [hlc] at this
                        exact Option.some_inj.mp this))
                    · exact h4 (Or.inr (by
                        have := (getLast?_eq_some_iff_suffix hst).mpr hsuf
                        rw [hlc] at this
                        exact Option.some_inj.mp this))
                  exact hcontra
                · exact h5 hlen

/-- One final-result speaker run fed to the sentence buffer
(`buffer.add(transcript, speaker, confidence, start_time, end_time)`). -/
structure SttRun where
  text : List Char
  speaker : Option Int
  confidence : ℚ
  start : ℚ
  fin : ℚ

def addRun (b : SentenceBuffer) (r : SttRun) : SentenceBuffer :=
  b.add r.text r.speaker r.confidence r.start r.fin

/-- The caption fields built by `ChannelSttService._emit_subtitle` from the
buffer (text post-processing via the external spacing model is not modeled;
the speaker index `n` is rendered as the label `화자 n+1` in the source). -/
structure LiveCaption where
  start_time : ℚ
  end_time : ℚ
  confidence : ℚ
  speaker : Option Int

def emit_subtitle (b : SentenceBuffer) : LiveCaption :=
  ⟨b.start_time, b.end_time, b.avg_confidence, b.speaker⟩

/-- Accumulator invariants of folding `add` over a run list, starting from a
buffer that already holds at least one part. -/
theorem foldl_addRun_aux (runs : List SttRun) :
    ∀ b : SentenceBuffer, b.parts ≠ [] →
      (runs.foldl addRun b).parts ≠ []
      ∧ (runs.foldl addRun b).start_time = b.start_time
      ∧ (runs = [] → (runs.foldl addRun b).end_time = b.end_time)
      ∧ (∀ rN, runs.getLast? = some rN → (runs.foldl addRun b).end_time = rN.fin)
      ∧ (runs.foldl addRun b).conf_sum = b.conf_sum + (runs.map SttRun.confidence).sum
      ∧ (runs.foldl addRun b).conf_count = b.conf_count + runs.length := by
  induction runs with
  | nil =>
    intro b hb
    refine ⟨hb, rfl, fun _ => rfl, ?_, by simp, rfl⟩
    intro rN h
    simp at h
  | cons r rest ih =>
    intro b hb
    rw [List.foldl_cons]
    have hb' : (addRun b r).parts ≠ [] := by
      simp [addRun, SentenceBuffer.add]
    obtain ⟨h1, h2, h3, h3', h4, h5⟩ := ih (addRun b r) hb'
    refine ⟨h1, ?_, ?_, ?_, ?_, ?_⟩
    · rw [h2]
      simp [addRun, SentenceBuffer.add, hb]
    · intro h
      simp at h
    · intro rN hN
      cases rest with
      | nil =>
        simp only [List.getLast?_singleton, Option.some_inj] at hN
        rw [h3 rfl, ← hN]
        simp [addRun, SentenceBuffer.add]
      | cons s l' =>
        rw [List.getLast?_cons_cons] at hN
        exact h3' rN hN
    · rw [h4]
      simp only [addRun, SentenceBuffer.add, List.map_cons, List.sum_cons]
      ring
    · rw [h5]
      simp only [addRun, SentenceBuffer.add, List.length_cons]
      omega

/-- Sum of a list of rationals each in `[0, 1]` is between `0` and the length. -/
theorem sum_confs_bounds (runs : List SttRun)
    (h : ∀ r ∈ runs, 0 ≤ r.confidence ∧ r.confidence ≤ 1) :
    0 ≤ (runs.map SttRun.confidence).sum
    ∧ (runs.map SttRun.confidence).sum ≤ (runs.length : ℚ) := by
  induction runs with
  | nil => simp
  | cons r rest ih =>
    have hr := h r (List.mem_cons_self r rest)
    have hrest := ih (fun r' hr' => h r' (List.mem_cons_of_mem r hr'))
    simp only [List.map_cons, List.sum_cons, List.length_cons]
    constructor
    · exact add_nonneg hr.1 hrest.1
    · push_cast
      linarith [hrest.2, hr.2]

/-- Along a time-ordered chain of well-formed runs, the first start is at most
the last end. -/
theorem chain_start_le_last_fin :
    ∀ (l : List SttRun) (r : SttRun),
      (∀ x ∈ r :: l, x.start ≤ x.fin) →
      List.Chain' (fun a b => a.fin ≤ b.start) (r :: l) →
      ∀ rN, (r :: l).getLast? = some rN → r.start ≤ rN.fin := by
  intro l
  induction l with
  | nil =>
    intro r hwf _ rN hN
    simp only [List.getLast?_singleton, Option.some_inj] at hN
    rw [← hN]
    exact hwf r (List.mem_cons_self r [])
  | cons s l' ih =>
    intro r hwf hch rN hN
    rw [List.getLast?_cons_cons] at hN
    rcases List.chain'_cons.mp hch with ⟨hrs, hch'⟩
    have hs := ih s (fun x hx => hwf x (List.mem_cons_of_mem r hx)) hch' rN hN
    have hr := hwf r (List.mem_cons_self r (s :: l'))
    linarith

/-- C8: captions emitted from a buffer fed with ordered, well-formed runs have
ordered timestamps and confidence in `[0, 1]`; start/end/confidence come from
the first run's start, the last run's end, and the mean of the confidences
(`0` for an empty buffer). -/
theorem emit_subtitle_invariants (runs : List SttRun)
    (hwf : ∀ r ∈ runs, r.start ≤ r.fin ∧ 0 ≤ r.confidence ∧ r.confidence ≤ 1)
    (hord : runs.Chain' (fun a b => a.fin ≤ b.start)) :
    (emit_subtitle (runs.foldl addRun SentenceBuffer.empty)).start_time
        ≤ (emit_subtitle (runs.foldl addRun SentenceBuffer.empty)).end_time
    ∧ 0 ≤ (emit_subtitle (runs.foldl addRun SentenceBuffer.empty)).confidence
    ∧ (emit_subtitle (runs.foldl addRun SentenceBuffer.empty)).confidence ≤ 1
    ∧ (∀ r₀, runs.head? = some r₀ →
        (emit_subtitle (runs.foldl addRun SentenceBuffer.empty)).start_time = r₀.start)
    ∧ (∀ rN, runs.getLast? = some rN →
        (emit_subtitle (runs.foldl addRun SentenceBuffer.empty)).end_time = rN.fin)
    ∧ (emit_subtitle (runs.foldl addRun SentenceBuffer.empty)).confidence
        = (if runs.length ≠ 0 then (runs.map SttRun.confidence).sum / runs.length else 0) := by
  cases runs with
  | nil =>
    refine ⟨le_refl 0, le_refl 0, zero_le_one, ?_, ?_, by simp [emit_subtitle,
      SentenceBuffer.avg_confidence, SentenceBuffer.empty]⟩
    · intro r₀ h
      simp at h
    · intro rN h
      simp at h
  | cons r rest =>
    have hwf_r := hwf r (List.mem_cons_self r rest)
    have hb' : (addRun SentenceBuffer.empty r).parts ≠ [] := by
      simp [addRun, SentenceBuffer.add]
    obtain ⟨h1, h2, h3, h3', h4, h5⟩ := foldl_addRun_aux rest (addRun SentenceBuffer.empty r) hb'
    have hstart : (addRun SentenceBuffer.empty r).start_time = r.start := by
      simp [addRun, SentenceBuffer.add, SentenceBuffer.empty]
    have hend : (addRun SentenceBuffer.empty r).end_time = r.fin := by
      simp [addRun, SentenceBuffer.add]
    have hcs : (addRun SentenceBuffer.empty r).conf_sum = r.confidence := by
      simp [addRun, SentenceBuffer.add, SentenceBuffer.empty]
    have hcc : (addRun SentenceBuffer.empty r).conf_count = 1 := by
      simp [addRun, SentenceBuffer.add, SentenceBuffer.empty]
    rw [List.foldl_cons]
    set B := rest.foldl addRun (addRun SentenceBuffer.empty r) with hB
    have hBstart : B.start_time = r.start := by rw [h2, hstart]
    have hBend : ∀ rN, (r :: rest).getLast? = some rN → B.end_time = rN.fin := by
      intro rN hN
      cases rest with
      | nil =>
        simp only [List.getLast?_singleton, Option.some_inj] at hN
        rw [h3 rfl, hend, hN]
      | cons s l' =>
        rw [List.getLast?_cons_cons] at hN
        exact h3' rN hN
    have hBsum : B.conf_sum = ((r :: rest).map SttRun.confidence).sum := by
      rw [h4, hcs]
      simp
    have hBcount : B.conf_count = (r :: rest).length := by
      rw [h5, hcc, List.length_cons]
      omega
    have hsum := sum_confs_bounds (r :: rest) (fun x hx => (hwf x hx).2)
    have hlenpos : (0 : ℚ) < ((r :: rest).length : ℚ) := by
      simp only [List.length_cons]
      positivity
    have hconf : (emit_subtitle B).confidence
        = ((r :: rest).map SttRun.confidence).sum / ((r :: rest).length : ℚ) := by
      simp only [emit_subtitle, SentenceBuffer.avg_confidence, hBsum, hBcount]
      rw [if_pos (by simp)]
    refine ⟨?_, ?_, ?_, ?_, ?_, ?_⟩
    · -- start ≤ end
      show B.start_time ≤ B.end_time
      obtain ⟨rN, hN⟩ : ∃ rN, (r :: rest).getLast? = some rN := by
        cases hg : (r :: rest).getLast? with
        | none => simp at hg
        | some rN => exact ⟨rN, rfl⟩
      rw [hBstart, hBend rN hN]
      exact chain_start_le_last_fin rest r (fun x hx => (hwf x hx).1) hord rN hN
    · rw [hconf]
      exact div_nonneg hsum.1 (le_of_lt hlenpos)
    · rw [hconf]
      rw [div_le_one hlenpos]
      exact hsum.2
    · intro r₀ h₀
      simp only [List.head?_cons, Option.some_inj] at h₀
      show B.start_time = r₀.start
      rw [hBstart, h₀]
    · exact hBend
    · rw [hconf, if_pos (by simp)]

/-! ### channel_stt.py — ChannelSttService task lifecycle -/

/-- `lookup` in an insertion-ordered association list (Python `dict.get`). -/
def lookupKey {β : Type} : List (String × β) → String → Option β
  | [], _ => none
  | kv :: rest, k => if kv.1 = k then some kv.2 else lookupKey rest k

/-- `m[k] = v` on an insertion-ordered association list (Python dict item
assignment: replace in place, else append). -/
def assocSet {β : Type} (m : List (String × β)) (k : String) (v : β) : List (String × β) :=
  if k ∈ m.map Prod.fst then
    m.map (fun kv => if kv.1 = k then (k, v) else kv)
  else m ++ [(k, v)]

/-- `m.pop(k, None)` (drop the entry for `k`). -/
def assocPop {β : Type} (m : List (String × β)) (k : String) : List (String × β) :=
  m.filter (fun kv => decide (kv.1 ≠ k))

/-- `ChannelSttService` state restricted to the task bookkeeping of
`start`/`stop`/`stop_all`: the `_active_tasks` dict (task objects stand for
creation counters), the log of tasks cancelled by `stop`, and the fresh-id
source of `asyncio.create_task`. -/
structure ChannelSttService where
  active_tasks : List (String × ℕ)
  cancelled : List ℕ
  next_task : ℕ

def ChannelSttService.init : ChannelSttService := ⟨[], [], 0⟩

/-- `stop(channel_id)`: pop the task and cancel it (parsers, counters, buffers
and the room history are also cleared in the source; the history part is
modeled with `ConnectionManager`). -/
def ChannelSttService.stop (c : String) (s : ChannelSttService) : ChannelSttService :=
  { active_tasks := assocPop s.active_tasks c
    cancelled := match lookupKey s.active_tasks c with
      | some tid => s.cancelled ++ [tid]
      | none => s.cancelled
    next_task := s.next_task }

/-- The no-running-task tail of `start`: register a fresh task for the channel. -/
def ChannelSttService.startFresh (c : String) (s : ChannelSttService) : ChannelSttService :=
  { active_tasks := assocSet s.active_tasks c s.next_task
    cancelled := s.cancelled
    next_task := s.next_task + 1 }

/-- `start(channel_id, stream_url)`: stop an existing task first, then bail out
without a Deepgram API key, else create and register the new task. -/
def ChannelSttService.start (c : String) (hasKey : Bool) (s : ChannelSttService) :
    ChannelSttService :=
  let s₁ := if (lookupKey s.active_tasks c).isSome then ChannelSttService.stop c s else s
  if hasKey then ChannelSttService.startFresh c s₁ else s₁

/-- `stop_all()`: stop every channel in the snapshot of current keys. -/
def ChannelSttService.stop_all (s : ChannelSttService) : ChannelSttService :=
  (s.active_tasks.map Prod.fst).foldl (fun st c => ChannelSttService.stop c st) s

inductive SttOp where
  | start (channel : String) (hasKey : Bool)
  | stop (channel : String)
  | stopAll

def applySttOp (s : ChannelSttService) : SttOp → ChannelSttService
  | SttOp.start c hk => ChannelSttService.start c hk s
  | SttOp.stop c => ChannelSttService.stop c s
  | SttOp.stopAll => ChannelSttService.stop_all s

/-- All states reachable from process start by `start`/`stop`/`stop_all`. -/
def runStt (ops : List SttOp) : ChannelSttService :=
  ops.foldl applySttOp ChannelSttService.init

/-- Well-formedness: one task per channel key, and task ids below the counter. -/
def SttWF (s : ChannelSttService) : Prop :=
  (s.active_tasks.map Prod.fst).Nodup ∧ ∀ kv ∈ s.active_tasks, kv.2 < s.next_task

theorem sttWF_stop (s : ChannelSttService) (c : String) (h : SttWF s) :
    SttWF (ChannelSttService.stop c s) := by
  constructor
  · exact List.Nodup.sublist ((List.filter_sublist _).map Prod.fst) h.1
  · intro kv hkv
    exact h.2 kv (List.mem_of_mem_filter hkv)

theorem lookupKey_eq_none_iff {β : Type} (m : List (String × β)) (k : String) :
    lookupKey m k = none ↔ k ∉ m.map Prod.fst := by
  induction m with
  | nil => simp [lookupKey]
  | cons kv rest ih =>
    by_cases h : kv.1 = k
    · simp [lookupKey, h]
    · simp only [lookupKey, if_neg h, List.map_cons, List.mem_cons, ih]
      constructor
      · rintro hn (hk | hk)
        · exact h hk.symm
        · exact hn hk
      · intro hn hk
        exact hn (Or.inr hk)

theorem lookupKey_mem {β : Type} {m : List (String × β)} {k : String} {v : β}
    (h : lookupKey m k = some v) : (k, v) ∈ m := by
  induction m with
  | nil => simp [lookupKey] at h
  | cons kv rest ih =>
    by_cases hk : kv.1 = k
    · rw [lookupKey, if_pos hk] at h
      obtain rfl := Option.some_inj.mp h
      have hkv : (k, kv.2) = kv := by rw [← hk]
      rw [hkv]
      exact List.mem_cons_self kv rest
    · rw [lookupKey, if_neg hk] at h
      exact List.mem_cons_of_mem kv (ih h)

theorem lookupKey_append {β : Type} (m m' : List (String × β)) (k : String) :
    lookupKey (m ++ m') k
      = match lookupKey m k with
        | some v => some v
        | none => lookupKey m' k := by
  induction m with
  | nil => simp [lookupKey]
  | cons kv rest ih =>
    by_cases h : kv.1 = k
    · simp [lookupKey, h]
    · simp only [List.cons_append, lookupKey, if_neg h]
      exact ih

theorem lookupKey_assocSet_self {β : Type} (m : List (String × β)) (k : String) (v : β) :
    lookupKey (assocSet m k v) k = some v := by
  unfold assocSet
  by_cases hmem : k ∈ m.map Prod.fst
  · rw [if_pos hmem]
    induction m with
    | nil => simp at hmem
    | cons kv rest ih =>
      by_cases h : kv.1 = k
      · simp [lookupKey, h]
      · simp only [List.map_cons, lookupKey, if_pos rfl, if_neg h]
        simp only [List.map_cons, List.mem_cons] at hmem
        rcases hmem with hmem | hmem
        · exact absurd hmem.symm h
        · exact ih hmem
  · rw [if_neg hmem]
    rw [lookupKey_append]
    rw [(lookupKey_eq_none_iff m k).mpr hmem]
    simp [lookupKey]

theorem lookupKey_assocPop_self {β : Type} (m : List (String × β)) (k : String) :
    lookupKey (assocPop m k) k = none := by
  rw [lookupKey_eq_none_iff]
  intro hmem
  rcases List.mem_map.mp hmem with ⟨kv, hkv, hfst⟩
  have := List.of_mem_filter hkv
  simp only [decide_eq_true_eq] at this
  exact this hfst

theorem assocSet_keys {β : Type} (m : List (String × β)) (k : String) (v : β) :
    (assocSet m k v).map Prod.fst
      = if k ∈ m.map Prod.fst then m.map Prod.fst else m.map Prod.fst ++ [k] := by
  unfold assocSet
  by_cases hmem : k ∈ m.map Prod.fst
  · rw [if_pos hmem, if_pos hmem, List.map_map]
    apply List.map_congr_left
    intro kv _
    by_cases h : kv.1 = k
    · simp [h]
    · simp [h]
  · rw [if_neg hmem, if_neg hmem]
    simp

theorem sttWF_startFresh (s : ChannelSttService) (c : String) (h : SttWF s) :
    SttWF (ChannelSttService.startFresh c s) := by
  constructor
  · show ((assocSet s.active_tasks c s.next_task).map Prod.fst).Nodup
    rw [assocSet_keys]
    by_cases hmem : c ∈ s.active_tasks.map Prod.fst
    · rw [if_pos hmem]
      exact h.1
    · rw [if_neg hmem]
      simp only [List.nodup_append, List.nodup_cons, List.nodup_nil, and_true,
        List.not_mem_nil, not_false_iff, true_and]
      refine ⟨h.1, ?_⟩
      intro a ha
      simp only [List.mem_singleton]
      intro hak
      exact hmem (hak ▸ ha)
  · intro kv hkv
    show kv.2 < s.next_task + 1
    simp only [ChannelSttService.startFresh, assocSet] at hkv
    by_cases hmem : c ∈ s.active_tasks.map Prod.fst
    · rw [if_pos hmem] at hkv
      rcases List.mem_map.mp hkv with ⟨kv', hkv', heq⟩
      by_cases h' : kv'.1 = c
      · rw [if_pos h'] at heq
        rw [← heq]
        omega
      · rw [if_neg h'] at heq
        rw [← heq]
        exact Nat.lt_succ_of_lt (h.2 kv' hkv')
    · rw [if_neg hmem] at hkv
      rcases List.mem_append.mp hkv with hkv | hkv
      · exact Nat.lt_succ_of_lt (h.2 kv hkv)
      · simp only [List.mem_singleton] at hkv
        rw [hkv]
        omega

theorem sttWF_start (s : ChannelSttService) (c : String) (hk : Bool) (h : SttWF s) :
    SttWF (ChannelSttService.start c hk s) := by
  unfold ChannelSttService.start
  have h₁ : SttWF (if (lookupKey s.active_tasks c).isSome then ChannelSttService.stop c s else s) := by
    by_cases hx : (lookupKey s.active_tasks c).isSome
    · rw [if_pos hx]
      exact sttWF_stop s c h
    · rw [if_neg hx]
      exact h
  by_cases hkk : hk
  · rw [if_pos hkk]
    exact sttWF_startFresh _ c h₁
  · rw [if_neg hkk]
    exact h₁

theorem sttWF_stop_all (s : ChannelSttService) (h : SttWF s) :
    SttWF (ChannelSttService.stop_all s) := by
  unfold ChannelSttService.stop_all
  generalize (s.active_tasks.map Prod.fst) = keys
  induction keys generalizing s with
  | nil => exact h
  | cons c rest ih =>
    rw [List.foldl_cons]
    exact ih _ (sttWF_stop s c h)

theorem runStt_wf (ops : List SttOp) : SttWF (runStt ops) := by
  have base : SttWF ChannelSttService.init := by
    constructor
    · simp [ChannelSttService.init]
    · intro kv hkv
      simp [ChannelSttService.init] at hkv
  unfold runStt
  generalize hinit : ChannelSttService.init = s₀
  rw [hinit] at base
  clear hinit
  induction ops generalizing s₀ with
  | nil => exact base
  | cons op rest ih =>
    rw [List.foldl_cons]
    apply ih
    cases op with
    | start c hk => exact sttWF_start s₀ c hk base
    | stop c => exact sttWF_stop s₀ c base
    | stopAll => exact sttWF_stop_all s₀ base

/-- C3: in every reachable service state the active-task map holds at most one
task per channel id, and `start` on a channel with a running task cancels and
removes that task before (at most) registering a fresh one. -/
theorem channel_stt_start_stop_spec (ops : List SttOp) (c : String) (t : ℕ) (hk : Bool) :
    ((runStt ops).active_tasks.map Prod.fst).Nodup
    ∧ (lookupKey (runStt ops).active_tasks c = some t →
        t ∈ (ChannelSttService.start c hk (runStt ops)).cancelled
        ∧ lookupKey (ChannelSttService.start c hk (runStt ops)).active_tasks c ≠ some t
        ∧ ChannelSttService.start c hk (runStt ops)
            = if hk then ChannelSttService.startFresh c (ChannelSttService.stop c (runStt ops))
              else ChannelSttService.stop c (runStt ops)) := by
  have hwf := runStt_wf ops
  refine ⟨hwf.1, ?_⟩
  intro hlook
  set s := runStt ops with hs
  have hsome : (lookupKey s.active_tasks c).isSome := by
    rw [hlook]
    rfl
  have hstart : ChannelSttService.start c hk s
      = if hk then ChannelSttService.startFresh c (ChannelSttService.stop c s)
        else ChannelSttService.stop c s := by
    unfold ChannelSttService.start
    rw [if_pos hsome]
  have hcancel : (ChannelSttService.stop c s).cancelled = s.cancelled ++ [t] := by
    unfold ChannelSttService.stop
    rw [hlook]
  have htlt : t < s.next_task := hwf.2 (c, t) (lookupKey_mem hlook)
  refine ⟨?_, ?_, hstart⟩
  · rw [hstart]
    by_cases hkk : hk
    · rw [if_pos hkk]
      show t ∈ (ChannelSttService.stop c s).cancelled
      rw [hcancel]
      simp
    · rw [if_neg hkk, hcancel]
      simp
  · rw [hstart]
    by_cases hkk : hk
    · rw [if_pos hkk]
      show lookupKey (assocSet (ChannelSttService.stop c s).active_tasks c
        (ChannelSttService.stop c s).next_task) c ≠ some t
      rw [lookupKey_assocSet_self]
      intro hcontra
      have : (ChannelSttService.stop c s).next_task = t := Option.some_inj.mp hcontra
      unfold ChannelSttService.stop at this
      simp only at this
      omega
    · rw [if_neg hkk]
      show lookupKey (assocPop s.active_tasks c) c ≠ some t
      rw [lookupKey_assocPop_self]
      simp

/-! ### api/websocket.py — ConnectionManager subtitle history -/

/-- `HISTORY_SIZE = 200`. -/
def HISTORY_SIZE : ℕ := 200

/-- Per-room subtitle history of the `ConnectionManager` (`subtitle_history`
dict; a missing room key and an empty list are both read as no history).
`α` is the stored subtitle payload. -/
structure ConnectionManager (α : Type) where
  subtitle_history : String → List α

def ConnectionManager.initial {α : Type} : ConnectionManager α := ⟨fun _ => []⟩

/-- `broadcast_subtitle`: append to the room history, then trim to the last
`HISTORY_SIZE` entries (`history[-HISTORY_SIZE:]`). Delivery to sockets is
side-effect free on the history and is not modeled. -/
def ConnectionManager.broadcast_subtitle {α : Type} (m : ConnectionManager α)
    (room_id : String) (subtitle_data : α) : ConnectionManager α :=
  ⟨fun r =>
    if r = room_id then
      if HISTORY_SIZE < (m.subtitle_history room_id ++ [subtitle_data]).length
      then (m.subtitle_history room_id ++ [subtitle_data]).drop
            ((m.subtitle_history room_id ++ [subtitle_data]).length - HISTORY_SIZE)
      else m.subtitle_history room_id ++ [subtitle_data]
    else m.subtitle_history r⟩

/-- `clear_history`: delete the room's history. -/
def ConnectionManager.clear_history {α : Type} (m : ConnectionManager α)
    (room_id : String) : ConnectionManager α :=
  ⟨fun r => if r = room_id then [] else m.subtitle_history r⟩

/-- History-affecting operations on the manager: live broadcasts (from
`ChannelSttService._emit_subtitle`) and the history clear performed by
`ChannelSttService.stop`. -/
inductive WsOp (α : Type) where
  | broadcast (room : String) (subtitle : α)
  | clear (room : String)

def applyWsOp {α : Type} (m : ConnectionManager α) : WsOp α → ConnectionManager α
  | WsOp.broadcast room s => m.broadcast_subtitle room s
  | WsOp.clear room => m.clear_history room

def runWs {α : Type} (ops : List (WsOp α)) : ConnectionManager α :=
  ops.foldl applyWsOp ConnectionManager.initial

/-- The captions broadcast to room `r` since the last `clear_history r`
(in broadcast order). -/
def sinceClear {α : Type} (r : String) (ops : List (WsOp α)) : List α :=
  ops.foldl (fun acc op =>
    match op with
    | WsOp.broadcast room s => if room = r then acc ++ [s] else acc
    | WsOp.clear room => if room = r then [] else acc) []

/-- The last `n` entries of a list. -/
def takeLast {α : Type} (n : ℕ) (l : List α) : List α := l.drop (l.length - n)

theorem takeLast_length_le {α : Type} (n : ℕ) (l : List α) : (takeLast n l).length ≤ n := by
  simp only [takeLast, List.length_drop]
  omega

theorem takeLast_eq_self {α : Type} (n : ℕ) (l : List α) (h : l.length ≤ n) :
    takeLast n l = l := by
  simp only [takeLast, Nat.sub_eq_zero_of_le h, List.drop_zero]

/-- The ring-buffer step agrees with `takeLast` over the full broadcast list. -/
theorem takeLast_append_step {α : Type} (n : ℕ) (hn : 0 < n) (q : List α) (c : α) :
    takeLast n (q ++ [c])
      = if n < (takeLast n q ++ [c]).length
        then (takeLast n q ++ [c]).drop ((takeLast n q ++ [c]).length - n)
        else takeLast n q ++ [c] := by
  by_cases hlen : q.length < n
  · rw [takeLast_eq_self n q (le_of_lt hlen)]
    rw [if_neg (by simp only [List.length_append, List.length_singleton]; omega)]
    apply takeLast_eq_self
    simp only [List.length_append, List.length_singleton]
    omega
  · push_neg at hlen
    have hq : (takeLast n q).length = n := by
      simp only [takeLast, List.length_drop]
      omega
    rw [if_pos (by simp only [List.length_append, List.length_singleton, hq]; omega)]
    have h1 : (takeLast n q ++ [c]).length - n = 1 := by
      simp only [List.length_append, List.length_singleton, hq]
      omega
    rw [h1, List.drop_append_eq_append_drop, hq]
    have h2 : 1 - n = 0 := by omega
    rw [h2, List.drop_zero]
    unfold takeLast
    rw [List.drop_drop, List.drop_append_eq_append_drop]
    simp only [List.length_append, List.length_singleton]
    have e2 : q.length + 1 - n - q.length = 0 := by omega
    rw [e2, List.drop_zero]
    congr 2
    omega

theorem runWs_append {α : Type} (ops : List (WsOp α)) (op : WsOp α) :
    runWs (ops ++ [op]) = applyWsOp (runWs ops) op := by
  unfold runWs
  rw [List.foldl_append, List.foldl_cons, List.foldl_nil]

theorem sinceClear_append_broadcast {α : Type} (r room : String) (ops : List (WsOp α)) (s : α) :
    sinceClear r (ops ++ [WsOp.broadcast room s])
      = if room = r then sinceClear r ops ++ [s] else sinceClear r ops := by
  unfold sinceClear
  rw [List.foldl_append, List.foldl_cons, List.foldl_nil]

theorem sinceClear_append_clear {α : Type} (r room : String) (ops : List (WsOp α)) :
    sinceClear r (ops ++ [WsOp.clear room])
      = if room = r then [] else sinceClear r ops := by
  unfold sinceClear
  rw [List.foldl_append, List.foldl_cons, List.foldl_nil]

set_option maxRecDepth 20000 in
/-- Main history invariant: a room's stored history is exactly the last
`HISTORY_SIZE` captions broadcast to it since its last clear. -/
theorem history_eq_takeLast {α : Type} (r : String) (ops : List (WsOp α)) :
    (runWs ops).subtitle_history r = takeLast HISTORY_SIZE (sinceClear r ops) := by
  induction ops using List.reverseRecOn with
  | nil => rfl
  | append_singleton ops op ih =>
    rw [runWs_append]
    cases op with
    | broadcast room s =>
      rw [sinceClear_append_broadcast]
      simp only [applyWsOp, ConnectionManager.broadcast_subtitle]
      by_cases hr : r = room
      · subst hr
        rw [if_pos rfl, if_pos rfl, ih]
        exact (takeLast_append_step HISTORY_SIZE (by norm_num [HISTORY_SIZE]) _ s).symm
      · rw [if_neg hr, if_neg (fun h => hr h.symm), ih]
    | clear room =>
      rw [sinceClear_append_clear]
      simp only [applyWsOp, ConnectionManager.clear_history]
      by_cases hr : r = room
      · subst hr
        rw [if_pos rfl, if_pos rfl]
        rfl
      · rw [if_neg hr, if_neg (fun h => hr h.symm), ih]

set_option maxRecDepth 20000 in
/-- C9: after every broadcast the room history holds at most 200 entries,
namely the most recent broadcasts to that room in order with the new caption
last, and clearing the history (as `ChannelSttService.stop` does) empties it. -/
theorem connection_manager_history_spec {α : Type} (ops : List (WsOp α)) (r : String) :
    ((runWs ops).subtitle_history r).length ≤ HISTORY_SIZE
    ∧ (runWs ops).subtitle_history r = takeLast HISTORY_SIZE (sinceClear r ops)
    ∧ (∀ c : α,
        (runWs (ops ++ [WsOp.broadcast r c])).subtitle_history r
          = takeLast HISTORY_SIZE (sinceClear r ops ++ [c])
        ∧ ((runWs (ops ++ [WsOp.broadcast r c])).subtitle_history r).getLast? = some c)
    ∧ (runWs (ops ++ [WsOp.clear r])).subtitle_history r = [] := by
  refine ⟨?_, history_eq_takeLast r ops, ?_, ?_⟩
  · rw [history_eq_takeLast r ops]
    exact takeLast_length_le HISTORY_SIZE _
  · intro c
    have h1 : (runWs (ops ++ [WsOp.broadcast r c])).subtitle_history r
        = takeLast HISTORY_SIZE (sinceClear r ops ++ [c]) := by
      rw [history_eq_takeLast r (ops ++ [WsOp.broadcast r c]),
        sinceClear_append_broadcast, if_pos rfl]
    refine ⟨h1, ?_⟩
    rw [h1]
    unfold takeLast
    rw [List.drop_append_eq_append_drop]
    have h2 : (sinceClear r ops ++ [c]).length - HISTORY_SIZE
        - (sinceClear r ops).length = 0 := by
      simp only [List.length_append, List.length_singleton, HISTORY_SIZE]
      omega
    rw [h2, List.drop_zero, List.getLast?_concat]
  · rw [history_eq_takeLast r (ops ++ [WsOp.clear r]), sinceClear_append_clear,
      if_pos rfl]
    rfl

/-! ### channel_status.py — ChannelStatusService.fetch_status -/

/-- `CACHE_TTL_SECONDS = 5`. -/
def CACHE_TTL_SECONDS : ℚ := 5

/-- One record of the upstream on-air JSON array. -/
structure OnairItem where
  adCode : String
  kmsLivestatus : Int
  adTh : Int
  adCha : Int

/-- Schedule info kept per channel (`session_no`, `session_order`). -/
structure ScheduleInfo where
  session_no : Int
  session_order : Int
deriving DecidableEq

structure ChannelStatusService where
  status : List (String × Int)
  schedule : List (String × ScheduleInfo)
  prev_status : List (String × Int)
  last_fetched : ℚ

def ChannelStatusService.init : ChannelStatusService := ⟨[], [], [], 0⟩

/-- The `new_status` dict built from the reply (`adCode` must be nonempty). -/
def buildStatus (data : List OnairItem) : List (String × Int) :=
  data.foldl (fun m it => if it.adCode ≠ "" then assocSet m it.adCode it.kmsLivestatus else m) []

/-- The `new_schedule` dict built from the reply. -/
def buildSchedule (data : List OnairItem) : List (String × ScheduleInfo) :=
  data.foldl (fun m it =>
    if it.adCode ≠ "" then assocSet m it.adCode ⟨it.adTh, it.adCha⟩ else m) []

/-- One entry of a change batch from `_detect_changes`. -/
structure StatusChange where
  code : String
  old_status : Option Int
  new_status : Option Int
deriving DecidableEq

/-- `_detect_changes`: compare current and previous snapshot over the union of
their keys (the Python iteration order over the key set is modeled as
first-current-then-previous, deduplicated). -/
def detect_changes (s : ChannelStatusService) : List StatusChange :=
  ((s.status.map Prod.fst) ++ (s.prev_status.map Prod.fst)).dedup.filterMap
    (fun code =>
      if lookupKey s.prev_status code ≠ lookupKey s.status code then
        some ⟨code, lookupKey s.prev_status code, lookupKey s.status code⟩
      else none)

/-- Result of one `fetch_status` call: the new service state, the returned
status map, the change batch pushed to the subscriber queues (`none` when
nothing was published), and whether the cached snapshot was served. -/
structure FetchOutcome where
  state : ChannelStatusService
  result : List (String × Int)
  published : Option (List StatusChange)
  usedCache : Bool

/-- `fetch_status`, with the clock readings passed in: `now` for the TTL check
and `tEnd` for the timestamp written after the upstream call; the fetch itself
is `Except.ok data` or `Except.error ()` (network/HTTP/JSON failure). The
in-lock re-check coincides with the first check for a single caller and is
folded into it. -/
def fetch_status (s : ChannelStatusService) (now tEnd : ℚ)
    (res : Except Unit (List OnairItem)) : FetchOutcome :=
  if now - s.last_fetched < CACHE_TTL_SECONDS ∧ s.status ≠ [] then
    ⟨s, s.status, none, true⟩
  else
    match res with
    | Except.ok data =>
      let s₂ : ChannelStatusService :=
        { status := buildStatus data
          schedule := buildSchedule data
          prev_status := s.status
          last_fetched := tEnd }
      ⟨s₂, s₂.status,
        if detect_changes s₂ = [] then none else some (detect_changes s₂), false⟩
    | Except.error _ =>
      ⟨{ status := s.status
         schedule := s.schedule
         prev_status := s.status
         last_fetched := tEnd - (CACHE_TTL_SECONDS - 1) }, s.status, none, false⟩

/-- C4: on a failed upstream fetch the snapshot and schedule are unchanged,
nothing is published, the prior snapshot is returned, and the cache timestamp
is rewound so that only calls within the next second can still be served from
cache (instead of the full TTL). -/
theorem fetch_status_failure_spec (s : ChannelStatusService) (now tEnd : ℚ)
    (hmiss : ¬ (now - s.last_fetched < CACHE_TTL_SECONDS ∧ s.status ≠ [])) :
    (fetch_status s now tEnd (Except.error ())).state.status = s.status
    ∧ (fetch_status s now tEnd (Except.error ())).state.schedule = s.schedule
    ∧ (fetch_status s now tEnd (Except.error ())).published = none
    ∧ (fetch_status s now tEnd (Except.error ())).result = s.status
    ∧ (fetch_status s now tEnd (Except.error ())).state.last_fetched
        = tEnd - (CACHE_TTL_SECONDS - 1)
    ∧ (∀ (now' tEnd' : ℚ) (res' : Except Unit (List OnairItem)),
        1 ≤ now' - tEnd →
        (fetch_status (fetch_status s now tEnd (Except.error ())).state
          now' tEnd' res').usedCache = false)
    ∧ (∀ (now' tEnd' : ℚ) (res' : Except Unit (List OnairItem)),
        now' - tEnd < 1 → s.status ≠ [] →
        (fetch_status (fetch_status s now tEnd (Except.error ())).state
          now' tEnd' res').usedCache = true) := by
  unfold fetch_status
  rw [if_neg hmiss]
  refine ⟨rfl, rfl, rfl, rfl, rfl, ?_, ?_⟩
  · intro now' tEnd' res' hlate
    rw [if_neg ?_]
    · cases res' <;> rfl
    · rintro ⟨httl, _⟩
      unfold CACHE_TTL_SECONDS at httl
      simp only at httl
      linarith
  · intro now' tEnd' res' hearly hne
    rw [if_pos ?_]
    constructor
    · show now' - (tEnd - (CACHE_TTL_SECONDS - 1)) < CACHE_TTL_SECONDS
      unfold CACHE_TTL_SECONDS
      linarith
    · exact hne

/-- C10: the cached snapshot is served only when it is nonempty; with an empty
stored status map every call goes upstream regardless of the TTL, so an empty
snapshot is never returned from cache. -/
theorem fetch_status_empty_not_cached (s : ChannelStatusService) (now tEnd : ℚ)
    (res : Except Unit (List OnairItem)) :
    ((fetch_status s now tEnd res).usedCache = true →
      s.status ≠ [] ∧ (fetch_status s now tEnd res).result = s.status
      ∧ (fetch_status s now tEnd res).result ≠ [])
    ∧ (s.status = [] → (fetch_status s now tEnd res).usedCache = false) := by
  constructor
  · intro hcache
    unfold fetch_status at hcache ⊢
    by_cases hc : now - s.last_fetched < CACHE_TTL_SECONDS ∧ s.status ≠ []
    · rw [if_pos hc]
      exact ⟨hc.2, rfl, hc.2⟩
    · rw [if_neg hc] at hcache
      exfalso
      cases res with
      | ok data => simp at hcache
      | error e => simp at hcache
  · intro hempty
    unfold fetch_status
    rw [if_neg (by rintro ⟨_, hne⟩; exact hne hempty)]
    cases res <;> rfl

/-! ### speaker_utils.py — group_words_by_speaker -/

/-- One entry of the Deepgram `words` array; the `.get` defaults of the source
are folded into the optional fields. -/
structure Word where
  speaker : Option Int
  punctuated_word : Option (List Char)
  word : Option (List Char)
  confidence : ℚ
  start : ℚ
  «end» : ℚ
deriving DecidableEq

/-- `w.get("punctuated_word", w.get("word", ""))`. -/
def wordText (w : Word) : List Char := w.punctuated_word.getD (w.word.getD [])

/-- One group of the result list. -/
structure SpeakerGroup where
  speaker : Option Int
  text : List Char
  confidence : ℚ
  start : ℚ
  «end» : ℚ

/-- The loop of `group_words_by_speaker` over the remaining words, carrying
`current_speaker`, `current_words`, `conf_sum`, `conf_count`, `start`, `end`. -/
def gwLoop (curSpeaker : Option Int) (curWords : List (List Char)) (confSum : ℚ)
    (confCount : ℕ) (start fin : ℚ) : List Word → List SpeakerGroup
  | [] =>
    if curWords = [] then []
    else [⟨curSpeaker, joinSpace curWords,
          if confCount ≠ 0 then confSum / (confCount : ℚ) else 0, start, fin⟩]
  | w :: ws =>
    if w.speaker ≠ curSpeaker ∧ curWords ≠ [] then
      ⟨curSpeaker, joinSpace curWords,
       if confCount ≠ 0 then confSum / (confCount : ℚ) else 0, start, fin⟩ ::
        gwLoop w.speaker [wordText w] w.confidence 1 w.start w.«end» ws
    else
      gwLoop curSpeaker (curWords ++ [wordText w]) (confSum + w.confidence)
        (confCount + 1) start w.«end» ws

def group_words_by_speaker : List Word → List SpeakerGroup
  | [] => []
  | w :: ws => gwLoop w.speaker [] 0 0 w.start w.«end» (w :: ws)

/-- Specification side: the maximal runs of consecutive equal-speaker words. -/
def speakerRuns : List Word → List (List Word)
  | [] => []
  | w :: ws =>
    (w :: ws.takeWhile (fun v => decide (v.speaker = w.speaker)))
      :: speakerRuns (ws.dropWhile (fun v => decide (v.speaker = w.speaker)))
termination_by l => l.length
decreasing_by
  exact Nat.lt_succ_of_le (List.dropWhile_suffix _).length_le

def runSpeaker (run : List Word) : Option Int :=
  match run.head? with
  | some w => w.speaker
  | none => none

def runStart (run : List Word) : ℚ :=
  match run.head? with
  | some w => w.start
  | none => 0

def runEnd (run : List Word) : ℚ :=
  match run.getLast? with
  | some w => w.«end»
  | none => 0

/-- The group a run denotes: first word's speaker and start, last word's end,
mean confidence, texts joined by single spaces. -/
def mkGroup (run : List Word) : SpeakerGroup :=
  ⟨runSpeaker run, joinSpace (run.map wordText),
   if run.length ≠ 0 then (run.map Word.confidence).sum / (run.length : ℚ) else 0,
   runStart run, runEnd run⟩

theorem takeWhile_append_all {p : Word → Bool} (as : List Word) (l : List Word)
    (h : ∀ v ∈ as, p v = true) :
    (as ++ l).takeWhile p = as ++ l.takeWhile p
    ∧ (as ++ l).dropWhile p = l.dropWhile p := by
  induction as with
  | nil => exact ⟨rfl, rfl⟩
  | cons a as' ih =>
    have ha := h a (List.mem_cons_self a as')
    obtain ⟨h1, h2⟩ := ih (fun v hv => h v (List.mem_cons_of_mem a hv))
    constructor
    · rw [List.cons_append, List.takeWhile_cons_of_pos ha, h1, List.cons_append]
    · rw [List.cons_append, List.dropWhile_cons_of_pos ha, h2]

theorem speakerRuns_all (a : Word) (as : List Word)
    (h : ∀ v ∈ as, v.speaker = a.speaker) :
    speakerRuns (a :: as) = [a :: as] := by
  obtain ⟨h1, h2⟩ := takeWhile_append_all (p := fun v => decide (v.speaker = a.speaker))
    as [] (fun v hv => decide_eq_true (h v hv))
  rw [List.append_nil, List.takeWhile_nil, List.append_nil] at h1
  rw [List.append_nil, List.dropWhile_nil] at h2
  rw [speakerRuns, h1, h2, speakerRuns]

theorem speakerRuns_break (a : Word) (as : List Word) (w : Word) (ws : List Word)
    (h : ∀ v ∈ as, v.speaker = a.speaker) (hw : w.speaker ≠ a.speaker) :
    speakerRuns (a :: (as ++ w :: ws)) = (a :: as) :: speakerRuns (w :: ws) := by
  obtain ⟨h1, h2⟩ := takeWhile_append_all (p := fun v => decide (v.speaker = a.speaker))
    as (w :: ws) (fun v hv => decide_eq_true (h v hv))
  rw [speakerRuns, h1, h2, List.takeWhile_cons_of_neg (by simpa using hw),
      List.dropWhile_cons_of_neg (by simpa using hw), List.append_nil]

theorem mkGroup_of_const (sp : Option Int) (a : Word) (as : List Word)
    (hsp : ∀ v ∈ a :: as, v.speaker = sp) :
    mkGroup (a :: as)
      = ⟨sp, joinSpace ((a :: as).map wordText),
         if (a :: as).length ≠ 0
         then ((a :: as).map Word.confidence).sum / ((a :: as).length : ℚ) else 0,
         runStart (a :: as), runEnd (a :: as)⟩ := by
  unfold mkGroup
  congr 1
  simp only [runSpeaker, List.head?_cons]
  exact hsp a (List.mem_cons_self a as)

theorem gwLoop_eq :
    ∀ (rest : List Word) (sp : Option Int) (acc : List Word), acc ≠ [] →
      (∀ v ∈ acc, v.speaker = sp) →
      gwLoop sp (acc.map wordText) ((acc.map Word.confidence).sum) acc.length
          (runStart acc) (runEnd acc) rest
        = (speakerRuns (acc ++ rest)).map mkGroup := by
  intro rest
  induction rest with
  | nil =>
    intro sp acc hacc hsp
    obtain ⟨a, as, rfl⟩ : ∃ a as, acc = a :: as := by
      cases acc with
      | nil => exact absurd rfl hacc
      | cons a as => exact ⟨a, as, rfl⟩
    rw [gwLoop, if_neg (by simp), List.append_nil, speakerRuns_all a as
      (fun v hv => by rw [hsp v (List.mem_cons_of_mem a hv),
        (hsp a (List.mem_cons_self a as)).symm]),
      List.map_singleton, mkGroup_of_const sp a as hsp]
  | cons w ws ih =>
    intro sp acc hacc hsp
    obtain ⟨a, as, rfl⟩ : ∃ a as, acc = a :: as := by
      cases acc with
      | nil => exact absurd rfl hacc
      | cons a as => exact ⟨a, as, rfl⟩
    by_cases hsame : w.speaker = sp
    · rw [gwLoop, if_neg (by rintro ⟨hne, _⟩; exact hne hsame)]
      have hext : ∀ v ∈ (a :: as) ++ [w], v.speaker = sp := by
        intro v hv
        rcases List.mem_append.mp hv with hv | hv
        · exact hsp v hv
        · simp only [List.mem_singleton] at hv
          rw [hv]
          exact hsame
      have e1 : (a :: as).map wordText ++ [wordText w] = ((a :: as) ++ [w]).map wordText := by
        simp
      have e2 : ((a :: as).map Word.confidence).sum + w.confidence
          = (((a :: as) ++ [w]).map Word.confidence).sum := by
        simp only [List.map_append, List.sum_append, List.map_cons, List.sum_cons,
          List.map_nil, List.sum_nil, add_zero]
      have e3 : (a :: as).length + 1 = ((a :: as) ++ [w]).length := by
        simp
      have e4 : runStart (a :: as) = runStart ((a :: as) ++ [w]) := by
        simp [runStart]
      have e5 : w.«end» = runEnd ((a :: as) ++ [w]) := by
        unfold runEnd
        rw [List.getLast?_concat]
      rw [e1, e2, e3, e4, e5, ih sp ((a :: as) ++ [w]) (by simp) hext, List.append_assoc,
        List.singleton_append]
    · rw [gwLoop, if_pos ⟨fun h => hsame h, by simp⟩]
      have hwa : w.speaker ≠ a.speaker := by
        rw [hsp a (List.mem_cons_self a as)]
        exact hsame
      rw [show (a :: as) ++ w :: ws = a :: (as ++ w :: ws) from rfl,
        speakerRuns_break a as w ws
          (fun v hv => by rw [hsp v (List.mem_cons_of_mem a hv),
            (hsp a (List.mem_cons_self a as)).symm]) hwa]
      rw [show List.map mkGroup ((a :: as) :: speakerRuns (w :: ws))
          = mkGroup (a :: as) :: List.map mkGroup (speakerRuns (w :: ws)) from rfl,
        mkGroup_of_const sp a as hsp]
      congr 1
      have h1 := ih w.speaker [w] (by simp) (by
        intro v hv
        simp only [List.mem_singleton] at hv
        rw [hv])
      have e6 : ([w].map Word.confidence).sum = w.confidence := by simp
      have e7 : runStart [w] = w.start := rfl
      have e8 : runEnd [w] = w.«end» := by simp [runEnd]
      rw [e6, e7, e8, List.singleton_append] at h1
      exact h1

theorem speakerRuns_nil : speakerRuns [] = [] := by
  rw [speakerRuns]

theorem speakerRuns_flatten : ∀ n (ws : List Word), ws.length ≤ n →
    (speakerRuns ws).flatten = ws := by
  intro n
  induction n with
  | zero =>
    intro ws hw
    rw [List.eq_nil_of_length_eq_zero (Nat.le_zero.mp hw), speakerRuns_nil]
    rfl
  | succ n ih =>
    intro ws hw
    cases ws with
    | nil =>
      rw [speakerRuns_nil]
      rfl
    | cons w ws' =>
      rw [speakerRuns, List.flatten_cons]
      have hdrop : (ws'.dropWhile (fun v => decide (v.speaker = w.speaker))).length ≤ n := by
        have := (List.dropWhile_suffix
          (l := ws') (fun v => decide (v.speaker = w.speaker))).length_le
        simp only [List.length_cons] at hw
        omega
      rw [ih _ hdrop, List.cons_append, List.takeWhile_append_dropWhile]

theorem mem_speakerRuns_spec : ∀ n (ws : List Word), ws.length ≤ n →
    ∀ r ∈ speakerRuns ws, r ≠ [] ∧ ∀ v ∈ r, v.speaker = runSpeaker r := by
  intro n
  induction n with
  | zero =>
    intro ws hw r hr
    rw [List.eq_nil_of_length_eq_zero (Nat.le_zero.mp hw)] at hr
    rw [speakerRuns_nil] at hr
    exact absurd hr (List.not_mem_nil r)
  | succ n ih =>
    intro ws hw r hr
    cases ws with
    | nil =>
      rw [speakerRuns_nil] at hr
      exact absurd hr (List.not_mem_nil r)
    | cons w ws' =>
      rw [speakerRuns] at hr
      rcases List.mem_cons.mp hr with hr | hr
      · subst hr
        refine ⟨by simp, ?_⟩
        intro v hv
        rcases List.mem_cons.mp hv with hv | hv
        · rw [hv]
          rfl
        · have := List.mem_takeWhile_imp hv
          simp only [decide_eq_true_eq] at this
          rw [this]
          rfl
      · have hdrop : (ws'.dropWhile (fun v => decide (v.speaker = w.speaker))).length ≤ n := by
          have := (List.dropWhile_suffix
            (l := ws') (fun v => decide (v.speaker = w.speaker))).length_le
          simp only [List.length_cons] at hw
          omega
        exact ih _ hdrop r hr

theorem dropWhile_head_not {p : Word → Bool} :
    ∀ (l : List Word) (v : Word) (rest : List Word),
      l.dropWhile p = v :: rest → p v = false := by
  intro l
  induction l with
  | nil =>
    intro v rest h
    simp [List.dropWhile_nil] at h
  | cons a l' ih =>
    intro v rest h
    by_cases ha : p a
    · rw [List.dropWhile_cons_of_pos ha] at h
      exact ih v rest h
    · rw [List.dropWhile_cons_of_neg ha] at h
      injection h with h1 h2
      rw [← h1]
      simp only [Bool.not_eq_true] at ha
      exact ha

theorem speakerRuns_chain : ∀ n (ws : List Word), ws.length ≤ n →
    (speakerRuns ws).Chain' (fun r s => runSpeaker r ≠ runSpeaker s) := by
  intro n
  induction n with
  | zero =>
    intro ws hw
    rw [List.eq_nil_of_length_eq_zero (Nat.le_zero.mp hw), speakerRuns_nil]
    exact List.chain'_nil
  | succ n ih =>
    intro ws hw
    cases ws with
    | nil =>
      rw [speakerRuns_nil]
      exact List.chain'_nil
    | cons w ws' =>
      rw [speakerRuns]
      apply List.chain'_cons'.mpr
      have hdrop : (ws'.dropWhile (fun v => decide (v.speaker = w.speaker))).length ≤ n := by
        have := (List.dropWhile_suffix
          (l := ws') (fun v => decide (v.speaker = w.speaker))).length_le
        simp only [List.length_cons] at hw
        omega
      constructor
      · intro r₂ hr₂
        cases hd : ws'.dropWhile (fun v => decide (v.speaker = w.speaker)) with
        | nil =>
          rw [hd] at hr₂
          rw [speakerRuns_nil] at hr₂
          simp at hr₂
        | cons v rest =>
          rw [hd, speakerRuns, List.head?_cons, Option.mem_some_iff] at hr₂
          have hv : (fun v => decide (v.speaker = w.speaker)) v = false :=
            dropWhile_head_not ws' v rest hd
          simp only [decide_eq_false_iff_not] at hv
          rw [← hr₂]
          simp only [runSpeaker, List.head?_cons]
          exact fun h => hv h.symm
      · exact ih _ hdrop

theorem joinSpace_append (xs ys : List (List Char)) (hxs : xs ≠ []) (hys : ys ≠ []) :
    joinSpace (xs ++ ys) = joinSpace xs ++ ' ' :: joinSpace ys := by
  induction xs with
  | nil => exact absurd rfl hxs
  | cons x xs' ih =>
    cases xs' with
    | nil =>
      cases ys with
      | nil => exact absurd rfl hys
      | cons y ys' => rfl
    | cons x' xs'' =>
      have h1 : joinSpace ((x :: x' :: xs'') ++ ys)
          = x ++ ' ' :: joinSpace ((x' :: xs'') ++ ys) := rfl
      have h2 : joinSpace (x :: x' :: xs'')
          = x ++ ' ' :: joinSpace (x' :: xs'') := rfl
      rw [h1, ih (by simp), h2]
      simp

theorem joinSpace_flatten : ∀ (runs : List (List Word)), (∀ r ∈ runs, r ≠ []) →
    joinSpace (runs.map (fun r => joinSpace (r.map wordText)))
      = joinSpace ((runs.flatten).map wordText) := by
  intro runs
  induction runs with
  | nil => intro _; rfl
  | cons r rest ih =>
    intro h
    have hr : r ≠ [] := h r (List.mem_cons_self r rest)
    cases rest with
    | nil =>
      simp only [List.map_cons, List.map_nil, List.flatten_cons, List.flatten_nil,
        List.append_nil]
      rfl
    | cons r' rest' =>
      have hrest : ∀ x ∈ r' :: rest', x ≠ [] := fun x hx => h x (List.mem_cons_of_mem r hx)
      have hr' : r' ≠ [] := hrest r' (List.mem_cons_self r' rest')
      have hflatne : (r' :: rest').flatten ≠ [] := by
        rw [List.flatten_cons]
        intro hcontra
        rcases List.append_eq_nil.mp hcontra with ⟨hc1, _⟩
        exact hr' hc1
      have step1 : joinSpace (List.map (fun r => joinSpace (r.map wordText)) (r :: r' :: rest'))
          = joinSpace (r.map wordText) ++ ' '
            :: joinSpace (List.map (fun r => joinSpace (r.map wordText)) (r' :: rest')) := rfl
      rw [List.flatten_cons, List.map_append,
        joinSpace_append (r.map wordText) (((r' :: rest').flatten).map wordText)
          (by simpa using hr) (by simpa using hflatne),
        step1, ih hrest]

/-- C6: `group_words_by_speaker` maps each maximal run of consecutive
same-speaker words to one group carrying the run speaker, the space-joined
texts, the mean confidence, the first word's start and the last word's end;
runs partition the input in order, adjacent runs have different speakers, and
re-joining the group texts equals joining all word texts. -/
theorem group_words_by_speaker_spec (ws : List Word) :
    group_words_by_speaker ws = (speakerRuns ws).map mkGroup
    ∧ (speakerRuns ws).flatten = ws
    ∧ (∀ r ∈ speakerRuns ws, r ≠ [] ∧ ∀ v ∈ r, v.speaker = (mkGroup r).speaker)
    ∧ (speakerRuns ws).Chain' (fun r s => (mkGroup r).speaker ≠ (mkGroup s).speaker)
    ∧ joinSpace ((group_words_by_speaker ws).map SpeakerGroup.text)
        = joinSpace (ws.map wordText) := by
  have hflat := speakerRuns_flatten ws.length ws le_rfl
  have hruns := mem_speakerRuns_spec ws.length ws le_rfl
  have hchain := speakerRuns_chain ws.length ws le_rfl
  have hmain : group_words_by_speaker ws = (speakerRuns ws).map mkGroup := by
    cases ws with
    | nil => rw [speakerRuns_nil]; rfl
    | cons w ws' =>
      rw [show group_words_by_speaker (w :: ws')
          = gwLoop w.speaker [] 0 0 w.start w.«end» (w :: ws') from rfl]
      rw [gwLoop, if_neg (by simp)]
      have h := gwLoop_eq ws' w.speaker [w] (by simp)
        (fun v hv => by simp only [List.mem_singleton] at hv; rw [hv])
      have e6 : ([w].map Word.confidence).sum = w.confidence := by simp
      have e7 : runStart [w] = w.start := rfl
      have e8 : runEnd [w] = w.«end» := by simp [runEnd]
      rw [e6, e7, e8, List.singleton_append] at h
      rw [show ([] : List (List Char)) ++ [wordText w] = [wordText w] from rfl,
        show (0 : ℚ) + w.confidence = w.confidence from zero_add _]
      exact h
  refine ⟨hmain, hflat, ?_, hchain, ?_⟩
  · intro r hr
    exact hruns r hr
  · rw [hmain, List.map_map]
    have : (SpeakerGroup.text ∘ mkGroup) = fun r => joinSpace (r.map wordText) := rfl
    rw [this, joinSpace_flatten (speakerRuns ws) (fun r hr => (hruns r hr).1), hflat]

/-! ### vod_stt_service.py — _parse_deepgram_response / _words_to_subtitles -/

/-- One entry of the Deepgram `results.utterances` array. -/
structure Utterance where
  transcript : List Char
  speaker : Option Int
  start : ℚ
  «end» : ℚ
  confidence : ℚ
deriving DecidableEq

/-- One produced subtitle row; the speaker index `n` is rendered as the label
`화자 n+1` by the source. -/
structure VodSubtitle where
  meeting_id : String
  text : List Char
  start_time : ℚ
  end_time : ℚ
  confidence : ℚ
  speaker : Option Int

/-- Replace-pass with nonempty pattern and nonempty replacement keeps a
nonempty string nonempty. -/
theorem replChar_ne_nil (x : Char) (xs c : List Char) (hc : c ≠ []) (a : Char)
    (s : List Char) : replChar x xs c (a :: s) ≠ [] := by
  rw [replChar]
  by_cases hpre : (x :: xs) <+: (a :: s)
  · rw [if_pos hpre]
    intro hcontra
    rcases List.append_eq_nil.mp hcontra with ⟨h1, _⟩
    exact hc h1
  · rw [if_neg hpre]
    simp

/-- Dictionary correction keeps nonempty text nonempty whenever every
replacement string is nonempty (true for the parliament table). -/
theorem correct_ne_nil (entries : List DictionaryEntry)
    (hes : ∀ e ∈ entries, e.correct_text ≠ []) (t : List Char) (ht : t ≠ []) :
    DictionaryService.correct entries t ≠ [] := by
  unfold DictionaryService.correct
  rw [if_neg ht]
  induction entries generalizing t with
  | nil => exact ht
  | cons e rest ih =>
    rw [List.foldl_cons]
    have hstep : applyEntry t e ≠ [] := by
      unfold applyEntry pyReplace
      cases hw : e.wrong_text with
      | nil =>
        intro hcontra
        rcases List.append_eq_nil.mp hcontra with ⟨h1, _⟩
        exact hes e (List.mem_cons_self e rest) h1
      | cons x xs =>
        show replChar x xs e.correct_text t ≠ []
        cases t with
        | nil => exact absurd rfl ht
        | cons a s =>
          exact replChar_ne_nil x xs e.correct_text (hes e (List.mem_cons_self e rest)) a s
    exact ih (fun e' he' => hes e' (List.mem_cons_of_mem e he')) (applyEntry t e) hstep

/-- The subtitle built from one utterance
(`utt.transcript.strip()` then dictionary correction). -/
def uttSubtitle (meeting_id : String) (dictionary : Option (List DictionaryEntry))
    (utt : Utterance) : Option VodSubtitle :=
  if stripChars utt.transcript = [] then none
  else some
    { meeting_id := meeting_id
      text := match dictionary with
        | some es => DictionaryService.correct es (stripChars utt.transcript)
        | none => stripChars utt.transcript
      start_time := utt.start
      end_time := utt.«end»
      confidence := utt.confidence
      speaker := utt.speaker }

/-- The subtitle a finished word segment emits (`None` when the joined text is
empty after stripping, or empty after correction). -/
def segmentSubtitle (meeting_id : String) (dictionary : Option (List DictionaryEntry))
    (curWords : List Word) (curSpeaker : Option Int) (segStart : ℚ) : Option VodSubtitle :=
  if curWords = [] then none
  else
    if (match dictionary with
        | some es =>
          if stripChars (joinSpace (curWords.map wordText)) = []
          then stripChars (joinSpace (curWords.map wordText))
          else DictionaryService.correct es (stripChars (joinSpace (curWords.map wordText)))
        | none => stripChars (joinSpace (curWords.map wordText))) = [] then none
    else some
      { meeting_id := meeting_id
        text := match dictionary with
          | some es =>
            if stripChars (joinSpace (curWords.map wordText)) = []
            then stripChars (joinSpace (curWords.map wordText))
            else DictionaryService.correct es (stripChars (joinSpace (curWords.map wordText)))
          | none => stripChars (joinSpace (curWords.map wordText))
        start_time := segStart
        end_time := match curWords.getLast? with
          | some w => w.«end»
          | none => segStart
        confidence := (curWords.map Word.confidence).sum / (curWords.length : ℚ)
        speaker := curSpeaker }

/-- The loop of `_words_to_subtitles` over the remaining words. -/
def wtsLoop (meeting_id : String) (dictionary : Option (List DictionaryEntry))
    (maxDur : ℚ) (curWords : List Word) (curSpeaker : Option Int) (segStart : ℚ) :
    List Word → List VodSubtitle
  | [] =>
    match segmentSubtitle meeting_id dictionary curWords curSpeaker segStart with
    | some sub => [sub]
    | none => []
  | w :: ws =>
    if w.speaker ≠ curSpeaker ∨ maxDur < w.start - segStart then
      (match segmentSubtitle meeting_id dictionary curWords curSpeaker segStart with
       | some sub => [sub]
       | none => []) ++ wtsLoop meeting_id dictionary maxDur [w] w.speaker w.start ws
    else
      wtsLoop meeting_id dictionary maxDur (curWords ++ [w]) curSpeaker segStart ws

/-- `_words_to_subtitles(meeting_id, words, dictionary, max_segment_duration=10)`. -/
def words_to_subtitles (meeting_id : String) (words : List Word)
    (dictionary : Option (List DictionaryEntry)) (maxDur : ℚ := 10) : List VodSubtitle :=
  match words with
  | [] => []
  | w :: _ => wtsLoop meeting_id dictionary maxDur [] w.speaker w.start words

/-- `_parse_deepgram_response(meeting_id, dg_result, dictionary)`: prefer the
utterances; fall back to the first channel's words; else no captions. The
nested `results`/`channels[0]`/`alternatives[0]` dict access is flattened into
the two lists (an absent array and an empty one coincide). -/
def parse_deepgram_response (meeting_id : String) (utterances : List Utterance)
    (words : List Word) (dictionary : Option (List DictionaryEntry)) : List VodSubtitle :=
  if utterances = [] then
    if words ≠ [] then words_to_subtitles meeting_id words dictionary 10
    else []
  else
    utterances.filterMap (uttSubtitle meeting_id dictionary)

theorem segmentSubtitle_text_ne_nil (meeting_id : String)
    (dictionary : Option (List DictionaryEntry)) (curWords : List Word)
    (curSpeaker : Option Int) (segStart : ℚ) (sub : VodSubtitle)
    (h : segmentSubtitle meeting_id dictionary curWords curSpeaker segStart = some sub) :
    sub.text ≠ [] := by
  unfold segmentSubtitle at h
  by_cases h1 : curWords = []
  · rw [if_pos h1] at h
    exact absurd h (by simp)
  · rw [if_neg h1] at h
    by_cases h2 : (match dictionary with
        | some es =>
          if stripChars (joinSpace (curWords.map wordText)) = []
          then stripChars (joinSpace (curWords.map wordText))
          else DictionaryService.correct es (stripChars (joinSpace (curWords.map wordText)))
        | none => stripChars (joinSpace (curWords.map wordText))) = []
    · rw [if_pos h2] at h
      exact absurd h (by simp)
    · rw [if_neg h2] at h
      obtain rfl := Option.some_inj.mp h
      exact h2

theorem wtsLoop_text_ne_nil (meeting_id : String)
    (dictionary : Option (List DictionaryEntry)) (maxDur : ℚ) :
    ∀ (rest curWords : List Word) (curSpeaker : Option Int) (segStart : ℚ),
      ∀ sub ∈ wtsLoop meeting_id dictionary maxDur curWords curSpeaker segStart rest,
        sub.text ≠ [] := by
  intro rest
  induction rest with
  | nil =>
    intro curWords curSpeaker segStart sub hsub
    rw [wtsLoop] at hsub
    cases hseg : segmentSubtitle meeting_id dictionary curWords curSpeaker segStart with
    | none =>
      rw [hseg] at hsub
      simp at hsub
    | some s =>
      rw [hseg] at hsub
      simp only [List.mem_singleton] at hsub
      subst hsub
      exact segmentSubtitle_text_ne_nil _ _ _ _ _ _ hseg
  | cons w ws ih =>
    intro curWords curSpeaker segStart sub hsub
    rw [wtsLoop] at hsub
    by_cases hcond : w.speaker ≠ curSpeaker ∨ maxDur < w.start - segStart
    · rw [if_pos hcond] at hsub
      rcases List.mem_append.mp hsub with hsub | hsub
      · cases hseg : segmentSubtitle meeting_id dictionary curWords curSpeaker segStart with
        | none =>
          rw [hseg] at hsub
          simp at hsub
        | some s =>
          rw [hseg] at hsub
          simp only [List.mem_singleton] at hsub
          subst hsub
          exact segmentSubtitle_text_ne_nil _ _ _ _ _ _ hseg
      · exact ih [w] w.speaker w.start sub hsub
    · rw [if_neg hcond] at hsub
      exact ih (curWords ++ [w]) curSpeaker segStart sub hsub

/-- C7: shape of `_parse_deepgram_response` with the parliament dictionary:
one subtitle per utterance with nonempty stripped transcript carrying the
utterance's start/end and the corrected transcript; words fallback grouped by
speaker with the 10-second split; empty input gives no captions; and no
returned subtitle has empty text. -/
theorem parse_deepgram_response_spec (meeting_id : String)
    (entries : List DictionaryEntry) (hes : ∀ e ∈ entries, e.correct_text ≠ [])
    (utterances : List Utterance) (words : List Word) :
    (utterances ≠ [] →
      parse_deepgram_response meeting_id utterances words (some entries)
        = (utterances.filter (fun u => decide (stripChars u.transcript ≠ []))).map
            (fun u =>
              { meeting_id := meeting_id
                text := DictionaryService.correct entries (stripChars u.transcript)
                start_time := u.start
                end_time := u.«end»
                confidence := u.confidence
                speaker := u.speaker }))
    ∧ (utterances = [] → words ≠ [] →
        parse_deepgram_response meeting_id utterances words (some entries)
          = words_to_subtitles meeting_id words (some entries) 10)
    ∧ (utterances = [] → words = [] →
        parse_deepgram_response meeting_id utterances words (some entries) = [])
    ∧ (∀ sub ∈ parse_deepgram_response meeting_id utterances words (some entries),
        sub.text ≠ []) := by
  refine ⟨?_, ?_, ?_, ?_⟩
  · intro hu
    unfold parse_deepgram_response
    rw [if_neg hu]
    induction utterances with
    | nil => rfl
    | cons u us ihu =>
      rw [List.filterMap_cons, List.filter_cons]
      by_cases hstrip : stripChars u.transcript = []
      · rw [show uttSubtitle meeting_id (some entries) u = none from by
          unfold uttSubtitle
          rw [if_pos hstrip]]
        rw [if_neg (by simpa using hstrip)]
        by_cases hus : us = []
        · subst hus
          rfl
        · exact ihu hus
      · rw [show uttSubtitle meeting_id (some entries) u = some
            { meeting_id := meeting_id
              text := DictionaryService.correct entries (stripChars u.transcript)
              start_time := u.start
              end_time := u.«end»
              confidence := u.confidence
              speaker := u.speaker } from by
          unfold uttSubtitle
          rw [if_neg hstrip]]
        rw [if_pos (by simpa using hstrip), List.map_cons]
        by_cases hus : us = []
        · subst hus
          rfl
        · rw [ihu hus]
  · intro hu hw
    unfold parse_deepgram_response
    rw [if_pos hu, if_pos hw]
  · intro hu hw
    unfold parse_deepgram_response
    rw [if_pos hu, if_neg (by simpa using hw)]
  · intro sub hsub
    unfold parse_deepgram_response at hsub
    by_cases hu : utterances = []
    · rw [if_pos hu] at hsub
      by_cases hw : words ≠ []
      · rw [if_pos hw] at hsub
        unfold words_to_subtitles at hsub
        cases words with
        | nil => exact absurd rfl hw
        | cons w ws =>
          exact wtsLoop_text_ne_nil meeting_id (some entries) 10 (w :: ws) [] w.speaker w.start sub hsub
      · rw [if_neg hw] at hsub
        simp at hsub
    · rw [if_neg hu] at hsub
      rcases List.mem_filterMap.mp hsub with ⟨u, _, huu⟩
      unfold uttSubtitle at huu
      by_cases hstrip : stripChars u.transcript = []
      · rw [if_pos hstrip] at huu
        simp at huu
      · rw [if_neg hstrip] at huu
        obtain rfl := Option.some_inj.mp huu
        exact correct_ne_nil entries hes _ hstrip

/-! ### Concrete witnesses -/

/-- Witness for the task-lifecycle theorem at a concrete operation sequence. -/
theorem channel_stt_start_stop_spec_witness :
    (0 : ℕ) ∈ (ChannelSttService.start "ch8" true (runStt [SttOp.start "ch8" true])).cancelled :=
  ((channel_stt_start_stop_spec [SttOp.start "ch8" true] "ch8" 0 true).2 rfl).1

/-- Witness for the failed-fetch theorem from the initial state. -/
theorem fetch_status_failure_spec_witness :
    (fetch_status ChannelStatusService.init 0 0 (Except.error ())).published = none
    ∧ (fetch_status ChannelStatusService.init 0 0 (Except.error ())).result = [] :=
  ⟨(fetch_status_failure_spec ChannelStatusService.init 0 0 (fun h => h.2 rfl)).2.2.1,
   (fetch_status_failure_spec ChannelStatusService.init 0 0 (fun h => h.2 rfl)).2.2.2.1⟩

/-- Witness for the flush-condition theorem on a concrete buffer. -/
theorem should_flush_spec_witness :
    (SentenceBuffer.mk ["안녕합니다".toList] none 0 0 0 0).should_flush = true :=
  ((should_flush_spec (SentenceBuffer.mk ["안녕합니다".toList] none 0 0 0 0)).2
    (by decide) (by decide)).mpr (Or.inl ⟨"다", by decide, by decide⟩)

/-- Witness for the speaker-grouping theorem on a two-speaker word list. -/
theorem group_words_by_speaker_spec_witness :
    (speakerRuns [Word.mk (some 0) (some "안녕하세요".toList) none 1 0 1,
                  Word.mk (some 1) (some "네".toList) none 1 1 2]).flatten
      = [Word.mk (some 0) (some "안녕하세요".toList) none 1 0 1,
         Word.mk (some 1) (some "네".toList) none 1 1 2] :=
  (group_words_by_speaker_spec _).2.1

/-- Witness for the VOD parsing theorem: empty reply yields no captions. -/
theorem parse_deepgram_response_spec_witness :
    parse_deepgram_response "m1" [] [] (some _PARLIAMENT_ENTRIES) = [] :=
  (parse_deepgram_response_spec "m1" _PARLIAMENT_ENTRIES (by decide) [] []).2.2.1 rfl rfl

/-- Witness for the caption-invariant theorem on one concrete run. -/
theorem emit_subtitle_invariants_witness :
    (emit_subtitle ([SttRun.mk "안녕하세요".toList (some 0) 1 0 2].foldl addRun
        SentenceBuffer.empty)).start_time
      ≤ (emit_subtitle ([SttRun.mk "안녕하세요".toList (some 0) 1 0 2].foldl addRun
        SentenceBuffer.empty)).end_time :=
  (emit_subtitle_invariants [SttRun.mk "안녕하세요".toList (some 0) 1 0 2]
    (by decide) (by simp)).1

/-- Witness for the cache theorem at the initial empty state. -/
theorem fetch_status_empty_not_cached_witness :
    (fetch_status ChannelStatusService.init 0 0 (Except.error ())).usedCache = false :=
  (fetch_status_empty_not_cached ChannelStatusService.init 0 0 (Except.error ())).2 rfl

end GgcSubtitle
